/-
Verification of the qc-toolkit pulse-program compiler and Tabor AWG driver
(`qctoolkit/hardware/program.py`, `qctoolkit/utils/tree.py`,
`qctoolkit/hardware/awgs/tabor.py`) against its natural-language
specification.

The Python code is shallowly embedded: the in-place tree mutations of
`Loop` become pure functions on an inductive tree type, the allocator and
registry state of `TaborChannelPair` becomes an explicit state record with
state-passing operations, Python exceptions become `Except`/`Option`
results, and the unbounded `while` loops of the compiler are driven by an
explicit fuel parameter (running out of fuel yields `none`, which is
distinguished from a normal return).  Floating-point quantities
(durations, repetition counts) are embedded as exact rationals; every
concrete input used in a counterexample below is exactly representable as
an IEEE double and is evaluated far from the corresponding comparison
boundary, so the rational model and the float semantics agree there.
-/
import Mathlib

set_option maxRecDepth 10000

namespace QcToolkit

/-! ## Waveforms and Loop trees (`qctoolkit/hardware/program.py`, `qctoolkit/utils/tree.py`)

A waveform is opaque, immutable, compared by content and exposes a
duration (spec §3).  We embed it as a content identifier together with its
duration in nanoseconds (a rational). -/

structure Wf where
  wid : Nat
  dur : ℚ
deriving DecidableEq, Repr

/-- A `Loop` node (`program.py`, class `Loop`): repetition count, optional
waveform, ordered list of exclusively owned children.  The Python parent
back-reference is a weak, derived relation (spec §9) and is represented
here by operating on the parent node directly. -/
inductive Loop where
  | mk (rep : Nat) (wf : Option Wf) (children : List Loop)
deriving Repr

def Loop.rep : Loop → Nat
  | .mk r _ _ => r

def Loop.wf : Loop → Option Wf
  | .mk _ w _ => w

def Loop.children : Loop → List Loop
  | .mk _ _ cs => cs

/-- `Loop.is_leaf` (`tree.py` line 39): a node with no children. -/
def Loop.isLeaf (l : Loop) : Bool :=
  l.children.isEmpty

mutual
/-- `Loop.duration` (`program.py` lines 54-59):
`rep * waveform.duration` for a leaf, `rep * Σ child.duration` otherwise.
A leaf whose waveform is `None` makes the Python property raise; such
nodes do not occur in the trees the claims quantify over and their
duration is embedded as `0` here. -/
def Loop.duration : Loop → ℚ
  | .mk r w [] => (r : ℚ) * ((w.map Wf.dur).getD 0)
  | .mk r _ (c :: cs) => (r : ℚ) * Loop.durationSum (c :: cs)

def Loop.durationSum : List Loop → ℚ
  | [] => 0
  | c :: cs => Loop.duration c + Loop.durationSum cs
end

mutual
/-- `Node.depth` (`tree.py` lines 42-43): `0` for a leaf, else
`1 + max child.depth`. -/
def Loop.depthN : Loop → Nat
  | .mk _ _ [] => 0
  | .mk _ _ (c :: cs) => 1 + Loop.depthMax (c :: cs)

def Loop.depthMax : List Loop → Nat
  | [] => 0
  | c :: cs => max (Loop.depthN c) (Loop.depthMax cs)
end

mutual
/-- `Node.is_balanced` (`tree.py` lines 45-48): every child has the depth
of the first child and is itself balanced. -/
def Loop.isBalanced : Loop → Bool
  | .mk _ _ [] => true
  | .mk _ _ (c :: cs) => Loop.balAll (Loop.depthN c) (c :: cs)

def Loop.balAll (d : Nat) : List Loop → Bool
  | [] => true
  | c :: cs => (Loop.depthN c == d && Loop.isBalanced c) && Loop.balAll d cs
end

mutual
/-- Specification predicate (spec §8, claim C5): every leaf reachable from
the node lies at exactly depth `d` below it. -/
def Loop.leavesAt : Loop → Nat → Bool
  | .mk _ _ [], d => d == 0
  | .mk _ _ (_ :: _), 0 => false
  | .mk _ _ (c :: cs), d+1 => Loop.leavesAtList (c :: cs) d

def Loop.leavesAtList : List Loop → Nat → Bool
  | [], _ => true
  | c :: cs, d => Loop.leavesAt c d && Loop.leavesAtList cs d
end

mutual
/-- Data-model invariant (spec §3): every node carries an integer
repetition count `≥ 1`. -/
def Loop.allPos : Loop → Bool
  | .mk r _ cs => decide (1 ≤ r) && Loop.allPosList cs

def Loop.allPosList : List Loop → Bool
  | [] => true
  | c :: cs => Loop.allPos c && Loop.allPosList cs
end

/-- `Loop.encapsulate` (`program.py` lines 89-95): wrap the node's whole
content in one new child carrying the former repetition count and
waveform; the node itself is reset to repetition 1 and no waveform. -/
def Loop.encapsulateF : Loop → Loop
  | .mk r w cs => .mk 1 none [.mk r w cs]

/-- `Loop.unroll_children` (`program.py` lines 81-87): replace the child
list by `rep` successive copies of the original children, then reset the
repetition count to 1.  The waveform field is untouched. -/
def Loop.unrollChildrenF : Loop → Loop
  | .mk r w cs => .mk 1 w (List.flatten (List.replicate r cs))

/-- `Loop.unroll` (`program.py` lines 71-79), expressed on the parent:
the child at index `i` is replaced, inside the parent's child list, by
`child.rep` successive copies of that child's own children.  The child's
waveform is dropped.  An out-of-range index (Python: `self` not found in
parent) leaves the tree unchanged here; the theorems always supply a
valid index. -/
def Loop.unrollAt : Loop → Nat → Loop
  | .mk r w cs, i =>
    match cs[i]? with
    | some c => .mk r w (cs.take i ++ List.flatten (List.replicate c.rep c.children) ++ cs.drop (i+1))
    | none => .mk r w cs

/-- Scan `reversed(range(n))` for the first index whose child has
repetition count `> 1` (`program.py` lines 163-167). -/
def lastRepGt1Aux (cs : List Loop) : Nat → Option Nat
  | 0 => none
  | n+1 =>
    match cs[n]? with
    | some c => if 1 < c.rep then some n else lastRepGt1Aux cs n
    | none => lastRepGt1Aux cs n

/-- Last child index with repetition count `> 1`
(`program.py` lines 163-167). -/
def Loop.lastRepGt1 (cs : List Loop) : Option Nat :=
  lastRepGt1Aux cs cs.length

/-- `Loop.split_one_child` (`program.py` lines 156-175).  Mirrors the
source exactly, including the Python truthiness test `if child_index:`
under which a given index of `0` falls through to the default
last-eligible-child branch. -/
def Loop.splitOneChild (l : Loop) (childIndex : Option Nat) : Except String Loop :=
  match l with
  | .mk r w cs =>
    let defaultIdx : Except String Nat :=
      match Loop.lastRepGt1 cs with
      | some i => .ok i
      | none => .error "RuntimeError: There is no child with repetition count > 1"
    let chosen : Except String Nat :=
      match childIndex with
      | some i =>
        if i ≠ 0 then
          match cs[i]? with
          | some c =>
            if c.rep < 2 then .error "ValueError: repetition count is not larger 1"
            else .ok i
          | none => .error "IndexError"
        else defaultIdx
      | none => defaultIdx
    match chosen with
    | .error e => .error e
    | .ok idx =>
      match cs[idx]? with
      | some c =>
        .ok (.mk r w (cs.take idx
          ++ [.mk (c.rep - 1) c.wf c.children, .mk 1 c.wf c.children]
          ++ cs.drop (idx+1)))
      | none => .error "IndexError"

/-- Subtree lookup along a path of child indices. -/
def Loop.getAt? : Loop → List Nat → Option Loop
  | t, [] => some t
  | .mk _ _ cs, i :: p =>
    match cs[i]? with
    | some c => Loop.getAt? c p
    | none => none

/-- Replace the subtree at a path of child indices by the image under
`f`; used to express "the tree containing the node" in claims C4/C6. -/
def Loop.modifyAt : Loop → List Nat → (Loop → Loop) → Loop
  | t, [], f => f t
  | .mk r w cs, i :: p, f =>
    match cs[i]? with
    | some c => .mk r w (cs.set i (Loop.modifyAt c p f))
    | none => .mk r w cs

/-! ## Duration lemmas for the Loop-tree operations (claims C4, C6) -/

theorem durationSum_append (a b : List Loop) :
    Loop.durationSum (a ++ b) = Loop.durationSum a + Loop.durationSum b := by
  induction a with
  | nil => simp [Loop.durationSum]
  | cons c cs ih => simp [Loop.durationSum, ih]; ring

theorem durationSum_flatten_replicate (n : Nat) (cs : List Loop) :
    Loop.durationSum (List.flatten (List.replicate n cs)) = n * Loop.durationSum cs := by
  induction n with
  | zero => simp [Loop.durationSum]
  | succ m ih =>
    rw [List.replicate_succ, List.flatten_cons, durationSum_append, ih]
    push_cast
    ring

theorem duration_of_ne_nil (r : Nat) (w : Option Wf) (cs : List Loop) (h : cs ≠ []) :
    (Loop.mk r w cs).duration = r * Loop.durationSum cs := by
  cases cs with
  | nil => exact absurd rfl h
  | cons c cs' => simp [Loop.duration]

theorem durationSum_cons (c : Loop) (cs : List Loop) :
    Loop.durationSum (c :: cs) = c.duration + Loop.durationSum cs := by
  simp [Loop.durationSum]

theorem durationSum_nil : Loop.durationSum ([] : List Loop) = 0 := by
  simp [Loop.durationSum]

theorem durationSum_set (cs : List Loop) (i : Nat) (c c' : Loop) (h : cs[i]? = some c) :
    Loop.durationSum (cs.set i c') = Loop.durationSum cs - c.duration + c'.duration := by
  induction cs generalizing i with
  | nil => simp at h
  | cons x xs ih =>
    cases i with
    | zero =>
      simp only [List.getElem?_cons_zero, Option.some.injEq] at h
      subst h
      simp [Loop.durationSum]
      ring
    | succ j =>
      simp only [List.getElem?_cons_succ] at h
      simp [Loop.durationSum, ih j h]
      ring

theorem duration_modifyAt (p : List Nat) (root n : Loop) (f : Loop → Loop)
    (hget : root.getAt? p = some n) (hf : (f n).duration = n.duration) :
    (root.modifyAt p f).duration = root.duration := by
  induction p generalizing root with
  | nil =>
    simp only [Loop.getAt?, Option.some.injEq] at hget
    subst hget
    simpa [Loop.modifyAt] using hf
  | cons i p' ih =>
    cases root with
    | mk r w cs =>
      simp only [Loop.getAt?] at hget
      cases hc : cs[i]? with
      | none => simp [hc] at hget
      | some c =>
        simp only [hc] at hget
        have hne : cs ≠ [] := by
          intro hnil
          subst hnil
          simp at hc
        have hlen : i < cs.length := (List.getElem?_eq_some.mp hc).1
        simp only [Loop.modifyAt, hc]
        rw [duration_of_ne_nil _ _ _ hne,
            duration_of_ne_nil _ _ _ (by simpa using hne)]
        rw [durationSum_set cs i c _ hc, ih c hget]
        ring

theorem duration_encapsulateF (t : Loop) : t.encapsulateF.duration = t.duration := by
  cases t with
  | mk r w cs =>
    show (Loop.mk 1 none [Loop.mk r w cs]).duration = (Loop.mk r w cs).duration
    rw [duration_of_ne_nil 1 none _ (by simp), durationSum_cons, durationSum_nil]
    simp

theorem flatten_replicate_ne_nil (r : Nat) (hr : 1 ≤ r) (c : Loop) (cs : List Loop) :
    List.flatten (List.replicate r (c :: cs)) ≠ [] := by
  cases r with
  | zero => omega
  | succ m => simp [List.replicate_succ]

theorem duration_unrollChildrenF (t : Loop) (hne : t.children ≠ []) (hr : 1 ≤ t.rep) :
    t.unrollChildrenF.duration = t.duration := by
  cases t with
  | mk r w cs =>
    cases cs with
    | nil => simp [Loop.children] at hne
    | cons c cs' =>
      simp only [Loop.unrollChildrenF]
      rw [duration_of_ne_nil _ _ _
            (flatten_replicate_ne_nil r (by simpa [Loop.rep] using hr) c cs'),
          duration_of_ne_nil _ _ _ (by simp)]
      rw [durationSum_flatten_replicate]
      push_cast
      ring

theorem duration_unrollAt (p : Loop) (i : Nat) (c : Loop)
    (hc : p.children[i]? = some c) (hne : c.children ≠ []) (hr : 1 ≤ c.rep) :
    (p.unrollAt i).duration = p.duration := by
  cases p with
  | mk r w cs =>
    simp only [Loop.children] at hc
    obtain ⟨hlen, hgetc⟩ := List.getElem?_eq_some.mp hc
    have hcs : cs = cs.take i ++ c :: cs.drop (i + 1) := by
      conv_lhs => rw [← List.take_append_drop i cs]
      rw [List.drop_eq_getElem_cons hlen, hgetc]
    have hcdur : c.duration = c.rep * Loop.durationSum c.children := by
      cases c with
      | mk cr cw ccs => simpa [Loop.rep, Loop.children] using
          duration_of_ne_nil cr cw ccs (by simpa [Loop.children] using hne)
    cases hccs : c.children with
    | nil => exact absurd hccs hne
    | cons cc ccs' =>
      have hfl : List.flatten (List.replicate c.rep (cc :: ccs')) ≠ [] :=
        flatten_replicate_ne_nil c.rep hr cc ccs'
      simp only [Loop.unrollAt, hc, hccs]
      rw [duration_of_ne_nil _ _ _ (by simp [hfl]),
          duration_of_ne_nil _ _ _ (by intro hnil; subst hnil; simp at hc)]
      rw [durationSum_append, durationSum_append, durationSum_flatten_replicate]
      conv_rhs => rw [hcs, durationSum_append, durationSum_cons, hcdur, hccs]
      ring

/-! ## Claim C4: duration invariance of unroll, unroll_children, encapsulate -/

/-- Claim C4, counterexample.  The claim quantifies over *every* Loop tree
node, but `unroll_children` on a leaf with repetition count 2 resets the
repetition count to 1 while leaving the node a leaf with its waveform, so
the duration halves (6 ns to 3 ns here) — far beyond any floating-point
tolerance.  (`unroll` on a leaf likewise deletes the leaf from its
parent.) -/
theorem unroll_children_on_leaf_changes_duration :
    ((Loop.mk 2 (some ⟨0, 3⟩) []).modifyAt [] Loop.unrollChildrenF).duration
      ≠ (Loop.mk 2 (some ⟨0, 3⟩) []).duration := by
  simp [Loop.modifyAt, Loop.unrollChildrenF, Loop.duration]

/-- Claim C4 (amended): for Loop trees obeying the data-model invariant
`repetition_count ≥ 1`, `unroll` and `unroll_children` leave the duration
of the containing tree unchanged when applied to a *non-leaf* node (in
exact rational arithmetic, hence a fortiori within floating tolerance),
and `encapsulate` does so for every node.  On leaves the first two
operations change the duration (see the counterexample). -/
theorem loop_ops_preserve_tree_duration :
    (∀ (root : Loop) (path : List Nat) (i : Nat) (parent child : Loop),
        root.getAt? path = some parent →
        parent.children[i]? = some child →
        child.children ≠ [] → 1 ≤ child.rep →
        (root.modifyAt path (fun q => q.unrollAt i)).duration = root.duration) ∧
    (∀ (root : Loop) (path : List Nat) (n : Loop),
        root.getAt? path = some n →
        n.children ≠ [] → 1 ≤ n.rep →
        (root.modifyAt path Loop.unrollChildrenF).duration = root.duration) ∧
    (∀ (root : Loop) (path : List Nat) (n : Loop),
        root.getAt? path = some n →
        (root.modifyAt path Loop.encapsulateF).duration = root.duration) := by
  refine ⟨?_, ?_, ?_⟩
  · intro root path i parent child hp hc hne hr
    exact duration_modifyAt path root parent _ hp (duration_unrollAt parent i child hc hne hr)
  · intro root path n hp hne hr
    exact duration_modifyAt path root n _ hp (duration_unrollChildrenF n hne hr)
  · intro root path n hp
    exact duration_modifyAt path root n _ hp (duration_encapsulateF n)

/-- Witness for the C4 theorem: all three operations evaluated on a
concrete two-level tree. -/
theorem loop_ops_preserve_tree_duration_witness :
    ((Loop.mk 1 none [Loop.mk 2 none [Loop.mk 1 (some ⟨0, 1⟩) []]]).modifyAt []
        (fun q => q.unrollAt 0)).duration
      = (Loop.mk 1 none [Loop.mk 2 none [Loop.mk 1 (some ⟨0, 1⟩) []]]).duration ∧
    ((Loop.mk 2 none [Loop.mk 1 (some ⟨0, 1⟩) []]).modifyAt []
        Loop.unrollChildrenF).duration
      = (Loop.mk 2 none [Loop.mk 1 (some ⟨0, 1⟩) []]).duration ∧
    ((Loop.mk 2 (some ⟨0, 1⟩) []).modifyAt [] Loop.encapsulateF).duration
      = (Loop.mk 2 (some ⟨0, 1⟩) []).duration := by
  refine ⟨?_, ?_, ?_⟩
  · exact loop_ops_preserve_tree_duration.1
      (Loop.mk 1 none [Loop.mk 2 none [Loop.mk 1 (some ⟨0, 1⟩) []]]) [] 0
      (Loop.mk 1 none [Loop.mk 2 none [Loop.mk 1 (some ⟨0, 1⟩) []]])
      (Loop.mk 2 none [Loop.mk 1 (some ⟨0, 1⟩) []])
      rfl rfl (by simp [Loop.children]) (by simp [Loop.rep])
  · exact loop_ops_preserve_tree_duration.2.1
      (Loop.mk 2 none [Loop.mk 1 (some ⟨0, 1⟩) []]) []
      (Loop.mk 2 none [Loop.mk 1 (some ⟨0, 1⟩) []])
      rfl (by simp [Loop.children]) (by simp [Loop.rep])
  · exact loop_ops_preserve_tree_duration.2.2
      (Loop.mk 2 (some ⟨0, 1⟩) []) [] (Loop.mk 2 (some ⟨0, 1⟩) []) rfl

/-! ## Claim C6: split_one_child -/

theorem loop_eta (c : Loop) : Loop.mk c.rep c.wf c.children = c := by
  cases c
  rfl

theorem lastRepGt1Aux_some (cs : List Loop) (n j : Nat)
    (h : lastRepGt1Aux cs n = some j) :
    j < n ∧ ∃ c, cs[j]? = some c ∧ 1 < c.rep ∧
      ∀ (k : Nat), j < k → k < n → ∀ (c' : Loop), cs[k]? = some c' → c'.rep ≤ 1 := by
  induction n with
  | zero => simp [lastRepGt1Aux] at h
  | succ m ih =>
    rw [lastRepGt1Aux] at h
    cases hm : cs[m]? with
    | some c =>
      simp only [hm] at h
      by_cases hrep : 1 < c.rep
      · rw [if_pos hrep] at h
        obtain rfl : m = j := by simpa using h
        exact ⟨Nat.lt_succ_self m, c, hm, hrep, fun k hk1 hk2 => by omega⟩
      · rw [if_neg hrep] at h
        obtain ⟨hj, c', hc', hrep', hlast⟩ := ih h
        refine ⟨Nat.lt_succ_of_lt hj, c', hc', hrep', ?_⟩
        intro k hk1 hk2 c'' hc''
        rcases Nat.lt_or_ge k m with hlt | hge
        · exact hlast k hk1 hlt c'' hc''
        · have : k = m := by omega
          subst this
          rw [hm] at hc''
          obtain rfl : c = c'' := by simpa using hc''
          omega
    | none =>
      simp only [hm] at h
      obtain ⟨hj, c', hc', hrep', hlast⟩ := ih h
      refine ⟨Nat.lt_succ_of_lt hj, c', hc', hrep', ?_⟩
      intro k hk1 hk2 c'' hc''
      rcases Nat.lt_or_ge k m with hlt | hge
      · exact hlast k hk1 hlt c'' hc''
      · have : k = m := by omega
        subst this
        rw [hm] at hc''
        exact absurd hc'' (by simp)

theorem lastRepGt1Aux_eq_some (cs : List Loop) (j : Nat) (c : Loop)
    (hc : cs[j]? = some c) (hrep : 1 < c.rep)
    (hlast : ∀ (k : Nat), j < k → ∀ (c' : Loop), cs[k]? = some c' → c'.rep ≤ 1) :
    ∀ n, j < n → n ≤ cs.length → lastRepGt1Aux cs n = some j := by
  intro n
  induction n with
  | zero => omega
  | succ m ih =>
    intro hjm hlen
    rcases Nat.lt_or_ge j m with hlt | hge
    · have hmlen : m < cs.length := by omega
      rw [lastRepGt1Aux]
      cases hm : cs[m]? with
      | some c' =>
        have : c'.rep ≤ 1 := hlast m hlt c' hm
        simp only [hm]
        rw [if_neg (by omega)]
        exact ih hlt (by omega)
      | none =>
        simp only [hm]
        exact ih hlt (by omega)
    · have : j = m := by omega
      subst this
      rw [lastRepGt1Aux]
      simp only [hc]
      rw [if_pos hrep]

theorem lastRepGt1Aux_eq_none (cs : List Loop)
    (h : ∀ (k : Nat) (c' : Loop), cs[k]? = some c' → c'.rep ≤ 1) :
    ∀ n, lastRepGt1Aux cs n = none := by
  intro n
  induction n with
  | zero => rfl
  | succ m ih =>
    rw [lastRepGt1Aux]
    cases hm : cs[m]? with
    | some c' =>
      have := h m c' hm
      simp only [hm]
      rw [if_neg (by omega)]
      exact ih
    | none =>
      simp only [hm]
      exact ih

theorem duration_split_parts (cr : Nat) (hcr : 1 ≤ cr) (cw : Option Wf) (ccs : List Loop) :
    (Loop.mk (cr - 1) cw ccs).duration + (Loop.mk 1 cw ccs).duration
      = (Loop.mk cr cw ccs).duration := by
  have hcast : ((cr - 1 : ℕ) : ℚ) = (cr : ℚ) - 1 := by
    push_cast [hcr]
    ring
  cases ccs with
  | nil =>
    simp only [Loop.duration, hcast]
    push_cast
    ring
  | cons c cs' =>
    simp only [Loop.duration, hcast]
    push_cast
    ring

theorem duration_after_split (r : Nat) (w : Option Wf) (cs : List Loop) (j : Nat) (c : Loop)
    (hc : cs[j]? = some c) (hcr : 1 ≤ c.rep) :
    (Loop.mk r w (cs.take j
        ++ [Loop.mk (c.rep - 1) c.wf c.children, Loop.mk 1 c.wf c.children]
        ++ cs.drop (j+1))).duration
      = (Loop.mk r w cs).duration := by
  obtain ⟨hlen, hgetc⟩ := List.getElem?_eq_some.mp hc
  have hcs : cs = cs.take j ++ c :: cs.drop (j + 1) := by
    conv_lhs => rw [← List.take_append_drop j cs]
    rw [List.drop_eq_getElem_cons hlen, hgetc]
  rw [duration_of_ne_nil _ _ _ (by simp),
      duration_of_ne_nil _ _ _ (by intro hnil; subst hnil; simp at hc)]
  rw [durationSum_append, durationSum_append, durationSum_cons, durationSum_cons,
      durationSum_nil]
  conv_rhs => rw [hcs, durationSum_append, durationSum_cons]
  have hparts := duration_split_parts c.rep hcr c.wf c.children
  rw [loop_eta c] at hparts
  rw [← hparts]
  ring

/-- Claim C6, counterexample.  On a node whose child 0 has repetition
count 1 and whose child 1 has repetition count 3, `split_one_child(0)`
must — per the claim — fail because child 0's repetition count is not
larger than 1.  In the source the test `if child_index:` is false for the
index `0`, so the call falls through to the no-index branch, succeeds,
and splits child 1 instead (identically to a call without an index). -/
theorem split_one_child_index_zero_falls_through :
    (Loop.splitOneChild
        (Loop.mk 1 none [Loop.mk 1 (some ⟨0, 1⟩) [], Loop.mk 3 (some ⟨1, 2⟩) []])
        (some 0)).isOk = true ∧
    Loop.splitOneChild
        (Loop.mk 1 none [Loop.mk 1 (some ⟨0, 1⟩) [], Loop.mk 3 (some ⟨1, 2⟩) []])
        (some 0)
      = Loop.splitOneChild
          (Loop.mk 1 none [Loop.mk 1 (some ⟨0, 1⟩) [], Loop.mk 3 (some ⟨1, 2⟩) []])
          none := by
  exact ⟨rfl, rfl⟩

/-- Claim C6 (amended): `split_one_child` operates on the child at the
given index when a *nonzero* index is given (failing when that child's
repetition count is not larger than 1); when no index is given — and
likewise when the index 0 is given, which Python truthiness sends down
the same branch — it operates on the last child with repetition count
`> 1`, failing when no such child exists.  In the success cases it
decrements the chosen child's repetition count by one and inserts an
identical copy with repetition count 1 immediately after it, so the
direct child count grows by one and the node's total duration is
unchanged. -/
theorem split_one_child_spec :
    (∀ (r : Nat) (w : Option Wf) (cs : List Loop) (i : Nat) (c : Loop),
        i ≠ 0 → cs[i]? = some c → 2 ≤ c.rep →
        ∃ cs', Loop.splitOneChild (Loop.mk r w cs) (some i) = .ok (Loop.mk r w cs')
          ∧ cs' = cs.take i
              ++ [Loop.mk (c.rep - 1) c.wf c.children, Loop.mk 1 c.wf c.children]
              ++ cs.drop (i+1)
          ∧ cs'.length = cs.length + 1
          ∧ (Loop.mk r w cs').duration = (Loop.mk r w cs).duration) ∧
    (∀ (r : Nat) (w : Option Wf) (cs : List Loop) (i : Nat) (c : Loop),
        i ≠ 0 → cs[i]? = some c → c.rep < 2 →
        ∃ e, Loop.splitOneChild (Loop.mk r w cs) (some i) = .error e) ∧
    (∀ (r : Nat) (w : Option Wf) (cs : List Loop) (ci : Option Nat) (j : Nat) (c : Loop),
        (ci = none ∨ ci = some 0) →
        cs[j]? = some c → 1 < c.rep →
        (∀ (k : Nat), j < k → ∀ (c' : Loop), cs[k]? = some c' → c'.rep ≤ 1) →
        ∃ cs', Loop.splitOneChild (Loop.mk r w cs) ci = .ok (Loop.mk r w cs')
          ∧ cs' = cs.take j
              ++ [Loop.mk (c.rep - 1) c.wf c.children, Loop.mk 1 c.wf c.children]
              ++ cs.drop (j+1)
          ∧ cs'.length = cs.length + 1
          ∧ (Loop.mk r w cs').duration = (Loop.mk r w cs).duration) ∧
    (∀ (r : Nat) (w : Option Wf) (cs : List Loop) (ci : Option Nat),
        (ci = none ∨ ci = some 0) →
        (∀ (k : Nat) (c' : Loop), cs[k]? = some c' → c'.rep ≤ 1) →
        ∃ e, Loop.splitOneChild (Loop.mk r w cs) ci = .error e) := by
  have hok : ∀ (r : Nat) (w : Option Wf) (cs : List Loop) (j : Nat) (c : Loop),
      cs[j]? = some c → 2 ≤ c.rep →
      (cs.take j
          ++ [Loop.mk (c.rep - 1) c.wf c.children, Loop.mk 1 c.wf c.children]
          ++ cs.drop (j+1)).length = cs.length + 1
        ∧ (Loop.mk r w (cs.take j
            ++ [Loop.mk (c.rep - 1) c.wf c.children, Loop.mk 1 c.wf c.children]
            ++ cs.drop (j+1))).duration = (Loop.mk r w cs).duration := by
    intro r w cs j c hc hcr
    have hlen : j < cs.length := (List.getElem?_eq_some.mp hc).1
    refine ⟨?_, duration_after_split r w cs j c hc (by omega)⟩
    simp [List.length_append, List.length_take, List.length_drop]
    omega
  refine ⟨?_, ?_, ?_, ?_⟩
  · intro r w cs i c hi hc hcr
    obtain ⟨h3, h4⟩ := hok r w cs i c hc hcr
    refine ⟨_, ?_, rfl, h3, h4⟩
    simp [Loop.splitOneChild, hi, hc, Nat.not_lt.mpr hcr]
  · intro r w cs i c hi hc hcr
    refine ⟨"ValueError: repetition count is not larger 1", ?_⟩
    simp [Loop.splitOneChild, hi, hc, hcr]
  · intro r w cs ci j c hci hc hrep hlast
    have hj : Loop.lastRepGt1 cs = some j :=
      lastRepGt1Aux_eq_some cs j c hc hrep hlast cs.length
        (List.getElem?_eq_some.mp hc).1 le_rfl
    obtain ⟨h3, h4⟩ := hok r w cs j c hc (by omega)
    refine ⟨_, ?_, rfl, h3, h4⟩
    rcases hci with rfl | rfl
    · simp [Loop.splitOneChild, hj, hc]
    · simp [Loop.splitOneChild, hj, hc]
  · intro r w cs ci hci hall
    have hn : Loop.lastRepGt1 cs = none := lastRepGt1Aux_eq_none cs hall cs.length
    refine ⟨"RuntimeError: There is no child with repetition count > 1", ?_⟩
    rcases hci with rfl | rfl
    · simp [Loop.splitOneChild, hn]
    · simp [Loop.splitOneChild, hn]

/-- Witness for the C6 theorem: all four branches evaluated on concrete
nodes. -/
theorem split_one_child_spec_witness :
    (∃ cs', Loop.splitOneChild
        (Loop.mk 1 none [Loop.mk 1 (some ⟨0, 1⟩) [], Loop.mk 3 (some ⟨1, 2⟩) []])
        (some 1) = .ok (Loop.mk 1 none cs') ∧ cs'.length = 3) ∧
    (∃ e, Loop.splitOneChild
        (Loop.mk 1 none [Loop.mk 3 (some ⟨1, 2⟩) [], Loop.mk 1 (some ⟨0, 1⟩) []])
        (some 1) = .error e) ∧
    (∃ cs', Loop.splitOneChild
        (Loop.mk 1 none [Loop.mk 1 (some ⟨0, 1⟩) [], Loop.mk 3 (some ⟨1, 2⟩) []])
        none = .ok (Loop.mk 1 none cs') ∧ cs'.length = 3) ∧
    (∃ e, Loop.splitOneChild
        (Loop.mk 1 none [Loop.mk 1 (some ⟨0, 1⟩) []]) none = .error e) := by
  refine ⟨?_, ?_, ?_, ?_⟩
  · obtain ⟨cs', h1, _, h3, _⟩ := split_one_child_spec.1 1 none
      [Loop.mk 1 (some ⟨0, 1⟩) [], Loop.mk 3 (some ⟨1, 2⟩) []] 1
      (Loop.mk 3 (some ⟨1, 2⟩) []) (by simp) rfl (by simp [Loop.rep])
    exact ⟨cs', h1, by simpa using h3⟩
  · obtain ⟨e, h⟩ := split_one_child_spec.2.1 1 none
      [Loop.mk 3 (some ⟨1, 2⟩) [], Loop.mk 1 (some ⟨0, 1⟩) []] 1
      (Loop.mk 1 (some ⟨0, 1⟩) []) (by simp) rfl (by simp [Loop.rep])
    exact ⟨e, h⟩
  · obtain ⟨cs', h1, _, h3, _⟩ := split_one_child_spec.2.2.1 1 none
      [Loop.mk 1 (some ⟨0, 1⟩) [], Loop.mk 3 (some ⟨1, 2⟩) []] none 1
      (Loop.mk 3 (some ⟨1, 2⟩) []) (Or.inl rfl) rfl (by simp [Loop.rep])
      (by intro k hk c' hc'
          match k, hk, hc' with
          | 0, hk, _ => exact absurd hk (by omega)
          | 1, hk, _ => exact absurd hk (by omega)
          | n+2, _, hc' => simp at hc')
    exact ⟨cs', h1, by simpa using h3⟩
  · obtain ⟨e, h⟩ := split_one_child_spec.2.2.2 1 none
      [Loop.mk 1 (some ⟨0, 1⟩) []] none (Or.inl rfl)
      (by intro k c' hc'
          match k, hc' with
          | 0, hc' =>
            have : Loop.mk 1 (some ⟨0, 1⟩) [] = c' := by simpa using hc'
            subst this
            simp [Loop.rep]
          | n+1, hc' => simp at hc')
    exact ⟨e, h⟩

/-! ## Claim C7: integrality of repetition_count -/

/-- Python `int()` truncation toward zero, on exact rationals. -/
def pyInt (q : ℚ) : ℤ :=
  if 0 ≤ q then ⌊q⌋ else ⌈q⌉

/-- The tolerance `1e-10` of `Loop.__init__` and of the
`repetition_count` setter.  (The IEEE double closest to `1e-10` differs
from the rational `10⁻¹⁰` by a relative error below `2⁻⁵²`; every input
used below sits at least `2⁻⁴⁰` away from the comparison boundary, where
the two agree.) -/
def repTol : ℚ := 1 / 10 ^ 10

/-- `Loop.__init__` (`program.py` lines 30-34) and the
`repetition_count` setter (lines 65-69): store `int(value)` and raise
when `abs(int(value) - value) > 1e-10`.  Note that the stored value is
the Python truncation toward zero, and that the value is stored *before*
the check. -/
def setRepetitionCount (val : ℚ) : Except String ℤ :=
  let stored := pyInt val
  if repTol < |(stored : ℚ) - val| then
    .error "ValueError: Repetition count was not an integer"
  else .ok stored

/-- Claim C7, counterexample.  The value `3 - 2⁻⁴⁰` (exactly
representable as an IEEE double) deviates from its nearest integer 3 by
`2⁻⁴⁰ ≈ 9.1e-13 ≤ 1e-10`, so per the claim construction must succeed and
store 3.  The source stores `int(value)`, which truncates to 2, and the
check `abs(2 - value) > 1e-10` then rejects the value. -/
theorem repetition_count_truncates_not_rounds :
    (setRepetitionCount ((3 : ℚ) - 1 / 2 ^ 40)).isOk = false ∧
    |((3 : ℚ) - 1 / 2 ^ 40) - 3| ≤ repTol := by
  have hfloor : pyInt ((3 : ℚ) - 1 / 2 ^ 40) = 2 := by
    rw [pyInt, if_pos (by norm_num)]
    rw [Int.floor_eq_iff]
    constructor <;> norm_num
  constructor
  · simp only [setRepetitionCount, hfloor]
    rw [if_pos]
    · rfl
    · have habs : |((2 : ℤ) : ℚ) - ((3 : ℚ) - 1 / 2 ^ 40)| = 1 - 1 / 2 ^ 40 := by
        rw [abs_of_nonpos (by norm_num)]
        norm_num
      rw [habs, repTol]
      norm_num
  · rw [repTol]
    rw [abs_of_nonpos (by norm_num)]
    norm_num

/-- Claim C7 (amended): constructing a Loop node from a rational
repetition value, or assigning its `repetition_count`, stores the Python
truncation `int(value)` — so the stored count is always exactly
integral — and fails exactly when the value deviates from that
*truncation toward zero* (not from the nearest integer) by more than
`1e-10`. -/
theorem repetition_count_integrality :
    ∀ (val : ℚ),
      (setRepetitionCount val = .ok (pyInt val) ↔ |((pyInt val : ℤ) : ℚ) - val| ≤ repTol) ∧
      ((setRepetitionCount val).isOk = false ↔ repTol < |((pyInt val : ℤ) : ℚ) - val|) := by
  intro val
  simp only [setRepetitionCount]
  split_ifs with hcond
  · exact ⟨iff_of_false (by simp) (not_le.mpr hcond), iff_of_true rfl hcond⟩
  · exact ⟨iff_of_true rfl (le_of_not_lt hcond),
      iff_of_false (by simp [Except.isOk, Except.toBool]) hcond⟩

/-! ## Claim C8: sampled_segments length validation

`TaborProgram.sampled_segments` (`tabor.py` lines 102-151) computes
`segment_lengths = [waveform.duration * Fraction(sample_rate, 10**9)]`
over the program's distinct waveforms, rejects unless
`abs(int(L) - L) < 1e-10 and L > 0` for every length, converts the list
to `uint64` (Python truncation; the preceding check guarantees the value
is positive, so no wrap-around occurs), and rejects when any length is
not a multiple of 16 or is smaller than 192.  The voltage sampling of
the accepted segments is a pure serialization step and is not modelled;
the returned value here is the list of segment sample counts, one per
waveform. -/

def sampledSegmentLengths (durations : List ℚ) (sampleRate : ℚ) : Except String (List ℤ) :=
  let sr := sampleRate / 10 ^ 9
  let segLens := durations.map (fun d => d * sr)
  if ¬ (∀ L ∈ segLens, |((pyInt L : ℤ) : ℚ) - L| < repTol ∧ 0 < L) then
    .error "TaborException: At least one waveform has a length that is no integer or smaller zero"
  else
    let lens := segLens.map pyInt
    if ∃ n ∈ lens, n % 16 > 0 ∨ n < 192 then
      .error "TaborException: At least one waveform has a length that is smaller 192 or not a multiple of 16"
    else
      .ok lens

theorem pyInt_intCast (z : ℤ) : pyInt (z : ℚ) = z := by
  rw [pyInt]
  split_ifs
  · exact Int.floor_intCast z
  · exact Int.ceil_intCast z

/-- Claim C8, counterexample.  A waveform of duration `192 - 2⁻⁴⁰` ns at
sample rate `10⁹` Hz has `duration × sample_rate = 192 - 2⁻⁴⁰` samples,
within `1e-10` of the integer 192, positive, a multiple of 16 and not
smaller than 192 — per the claim, `sampled_segments` must accept it with
sample count `round(192 - 2⁻⁴⁰) = 192`.  The source compares against
`int(192 - 2⁻⁴⁰) = 191` (truncation), finds a deviation of almost 1, and
raises. -/
theorem sampled_segments_truncates_not_rounds :
    (sampledSegmentLengths [(192 : ℚ) - 1 / 2 ^ 40] (10 ^ 9)).isOk = false ∧
    |((192 : ℚ) - 1 / 2 ^ 40) * ((10 ^ 9 : ℚ) / 10 ^ 9) - 192| ≤ repTol ∧
    (0 : ℚ) < ((192 : ℚ) - 1 / 2 ^ 40) * ((10 ^ 9 : ℚ) / 10 ^ 9) ∧
    (192 : ℤ) % 16 = 0 ∧ (192 : ℤ) ≤ 192 := by
  have hL : ((192 : ℚ) - 1 / 2 ^ 40) * ((10 ^ 9 : ℚ) / 10 ^ 9) = 192 - 1 / 2 ^ 40 := by
    norm_num
  have hfloor : pyInt ((192 : ℚ) - 1 / 2 ^ 40) = 191 := by
    rw [pyInt, if_pos (by norm_num)]
    rw [Int.floor_eq_iff]
    constructor <;> norm_num
  refine ⟨?_, ?_, by norm_num, by norm_num, le_rfl⟩
  · simp only [sampledSegmentLengths, List.map_cons, List.map_nil, hL]
    rw [if_pos]
    · rfl
    · intro hall
      obtain ⟨habs, _⟩ := hall ((192 : ℚ) - 1 / 2 ^ 40) (by simp)
      rw [hfloor, abs_of_nonpos (by norm_num)] at habs
      rw [repTol] at habs
      norm_num at habs
  · rw [hL, abs_of_nonpos (by norm_num), repTol]
    norm_num

/-- Claim C8 (amended): with `L_i = duration_i × sample_rate / 10⁹` the
exact per-waveform sample value, `sampled_segments` raises exactly when
some `L_i` is not strictly within `1e-10` *above-or-below its truncation
toward zero* (not its nearest integer) or is not positive, or when some
truncated count `int(L_i)` is not a multiple of 16 or is smaller than
192; otherwise it returns one sample count per waveform, namely
`int(L_i)` (which, the first check having passed, also equals
`round(L_i)`). -/
theorem sampled_segments_spec :
    ∀ (durations : List ℚ) (sampleRate : ℚ),
      ((∃ L ∈ durations.map (fun d => d * (sampleRate / 10 ^ 9)),
          ¬ (|((pyInt L : ℤ) : ℚ) - L| < repTol ∧ 0 < L)) →
        ∃ e, sampledSegmentLengths durations sampleRate = .error e) ∧
      ((∀ L ∈ durations.map (fun d => d * (sampleRate / 10 ^ 9)),
          |((pyInt L : ℤ) : ℚ) - L| < repTol ∧ 0 < L) →
        ((∃ n ∈ (durations.map (fun d => d * (sampleRate / 10 ^ 9))).map pyInt,
            n % 16 > 0 ∨ n < 192) →
          ∃ e, sampledSegmentLengths durations sampleRate = .error e) ∧
        ((∀ n ∈ (durations.map (fun d => d * (sampleRate / 10 ^ 9))).map pyInt,
            n % 16 = 0 ∧ 192 ≤ n) →
          sampledSegmentLengths durations sampleRate
              = .ok ((durations.map (fun d => d * (sampleRate / 10 ^ 9))).map pyInt) ∧
          ((durations.map (fun d => d * (sampleRate / 10 ^ 9))).map pyInt).length
              = durations.length)) := by
  intro durations sampleRate
  constructor
  · intro hex
    refine ⟨"TaborException: At least one waveform has a length that is no integer or smaller zero", ?_⟩
    rw [sampledSegmentLengths, if_pos]
    push_neg
    obtain ⟨L, hmem, hnot⟩ := hex
    rcases not_and_or.mp hnot with h | h
    · exact ⟨L, hmem, fun habs => absurd habs h⟩
    · exact ⟨L, hmem, fun _ => le_of_not_lt h⟩
  · intro hall
    constructor
    · intro hex
      refine ⟨"TaborException: At least one waveform has a length that is smaller 192 or not a multiple of 16", ?_⟩
      rw [sampledSegmentLengths, if_neg (by push_neg at *; exact fun L hL => hall L hL),
          if_pos hex]
    · intro hnone
      constructor
      · rw [sampledSegmentLengths, if_neg (by push_neg at *; exact fun L hL => hall L hL),
            if_neg]
        intro hex
        obtain ⟨n, hmem, hbad⟩ := hex
        obtain ⟨h16, h192⟩ := hnone n hmem
        rcases hbad with h | h
        · omega
        · omega
      · simp

/-- Witness for the C8 theorem: two conforming waveforms (192 and 384
samples at `10⁹` Hz) are accepted with their exact sample counts. -/
theorem sampled_segments_spec_witness :
    sampledSegmentLengths [(192 : ℚ), 384] (10 ^ 9) = .ok [192, 384] := by
  have hsr : (10 ^ 9 : ℚ) / 10 ^ 9 = 1 := by norm_num
  have hmap : ([(192 : ℚ), 384].map (fun d => d * ((10 ^ 9 : ℚ) / 10 ^ 9)))
      = [(192 : ℚ), 384] := by
    simp [hsr]
  have hp1 : pyInt (192 : ℚ) = 192 := by simpa using pyInt_intCast 192
  have hp2 : pyInt (384 : ℚ) = 384 := by simpa using pyInt_intCast 384
  have hall : ∀ L ∈ [(192 : ℚ), 384].map (fun d => d * ((10 ^ 9 : ℚ) / 10 ^ 9)),
      |((pyInt L : ℤ) : ℚ) - L| < repTol ∧ 0 < L := by
    rw [hmap]
    intro L hL
    simp only [List.mem_cons, List.not_mem_nil, or_false] at hL
    rcases hL with rfl | rfl
    · rw [hp1]
      norm_num [repTol]
    · rw [hp2]
      norm_num [repTol]
  have hnone : ∀ n ∈ ([(192 : ℚ), 384].map (fun d => d * ((10 ^ 9 : ℚ) / 10 ^ 9))).map pyInt,
      n % 16 = 0 ∧ 192 ≤ n := by
    rw [hmap]
    intro n hn
    simp only [List.map_cons, List.map_nil, hp1, hp2, List.mem_cons,
      List.not_mem_nil, or_false] at hn
    rcases hn with rfl | rfl
    · exact ⟨by decide, by decide⟩
    · exact ⟨by decide, by decide⟩
  obtain ⟨hmain, -⟩ := ((sampled_segments_spec [(192 : ℚ), 384] (10 ^ 9)).2 hall).2 hnone
  rw [hmap] at hmain
  simpa only [List.map_cons, List.map_nil, hp1, hp2] using hmain

/-! ## Claim C9: the configuration guard

`with_configuration_guard` (`tabor.py` lines 488-504) wraps a method: it
calls `_enter_config_mode` when the guard counter is 0, increments the
counter, runs the method inside `try`, and in the `finally` block
decrements the counter and calls `_exit_config_mode` when it reaches 0.
`_enter_config_mode` (lines 1038-1055) issues its device commands only
when `_is_in_config_mode` is false and then sets it; `_exit_config_mode`
(lines 1057-1080) issues run-state commands and unconditionally clears
`_is_in_config_mode`.  Device-state transitions are recorded as events;
the wrapped bodies are arbitrary trees of plain actions, failing actions
and nested guarded calls. -/

inductive GEvent where
  | enterConfig
  | exitConfig
deriving DecidableEq, Repr

structure GState where
  guardCount : Nat
  inConfigMode : Bool
deriving DecidableEq, Repr

/-- `_enter_config_mode`: transition (and event) only when not already in
configuration mode. -/
def enterConfigMode (s : GState) : GState × List GEvent :=
  if s.inConfigMode = false then ({ s with inConfigMode := true }, [.enterConfig])
  else (s, [])

/-- `_exit_config_mode`: always switches back to run state. -/
def exitConfigMode (s : GState) : GState × List GEvent :=
  ({ s with inConfigMode := false }, [.exitConfig])

/-- A guarded client computation: plain device work, a failing body, a
sequence, or a method wrapped in `with_configuration_guard`. -/
inductive GProg where
  | act
  | fail
  | seq (a b : GProg)
  | guarded (p : GProg)

/-- Helper around `_enter_config_mode`: the decorator calls it only when
the guard counter is 0. -/
def guardEnter (s : GState) : GState × List GEvent :=
  if s.guardCount = 0 then enterConfigMode s else (s, [])

/-- Helper around `_exit_config_mode`: the decorator calls it only when
the decremented guard counter is back to 0. -/
def guardExit (s : GState) : GState × List GEvent :=
  if s.guardCount = 0 then exitConfigMode s else (s, [])

/-- Interpreter for `with_configuration_guard` (`tabor.py` lines
488-504): the `guarded` case is a literal transcription of the decorator
(enter when the counter is 0, increment, run the body, then — in
`finally`, hence also on failure — decrement and exit when the counter
is back to 0).  Returns the final state, the device-transition trace,
and whether the computation completed without an exception. -/
def runGuard : GProg → GState → GState × List GEvent × Bool
  | .act, s => (s, [], true)
  | .fail, s => (s, [], false)
  | .seq a b, s =>
    let ra := runGuard a s
    if ra.2.2 then
      let rb := runGuard b ra.1
      (rb.1, ra.2.1 ++ rb.2.1, rb.2.2)
    else ra
  | .guarded p, s =>
    let e := guardEnter s
    let r := runGuard p ⟨e.1.guardCount + 1, e.1.inConfigMode⟩
    let s4 : GState := ⟨r.1.guardCount - 1, r.1.inConfigMode⟩
    let x := guardExit s4
    (x.1, e.2 ++ r.2.1 ++ x.2, r.2.2)

theorem enterConfigMode_count (s : GState) :
    (enterConfigMode s).1.guardCount = s.guardCount := by
  rw [enterConfigMode]
  split <;> rfl

theorem guardEnter_count (s : GState) :
    (guardEnter s).1.guardCount = s.guardCount := by
  rw [guardEnter]
  split
  · exact enterConfigMode_count s
  · rfl

theorem guardExit_count (s : GState) :
    (guardExit s).1.guardCount = s.guardCount := by
  rw [guardExit]
  split <;> rfl

theorem runGuard_count (p : GProg) : ∀ (s : GState),
    (runGuard p s).1.guardCount = s.guardCount := by
  induction p with
  | act => intro s; rfl
  | fail => intro s; rfl
  | seq a b iha ihb =>
    intro s
    simp only [runGuard]
    split
    · simp only [ihb, iha]
    · exact iha s
  | guarded p ih =>
    intro s
    simp only [runGuard, guardExit_count, ih, guardEnter_count]
    omega

theorem runGuard_nested (p : GProg) : ∀ (s : GState), 1 ≤ s.guardCount →
    (runGuard p s).1 = s ∧ (runGuard p s).2.1 = [] := by
  induction p with
  | act => intro s _; exact ⟨rfl, rfl⟩
  | fail => intro s _; exact ⟨rfl, rfl⟩
  | seq a b iha ihb =>
    intro s hs
    obtain ⟨ha1, ha2⟩ := iha s hs
    simp only [runGuard]
    split
    · obtain ⟨hb1, hb2⟩ := ihb (runGuard a s).1 (by rw [ha1]; exact hs)
      rw [ha1] at hb1 hb2
      rw [ha1, ha2, hb1, hb2]
      exact ⟨rfl, rfl⟩
    · exact ⟨ha1, ha2⟩
  | guarded p ih =>
    intro s hs
    have hne : ¬ s.guardCount = 0 := by omega
    have he : guardEnter s = (s, []) := by rw [guardEnter, if_neg hne]
    obtain ⟨hp1, hp2⟩ := ih ⟨s.guardCount + 1, s.inConfigMode⟩ (by simp)
    simp only [runGuard, he, hp1, hp2]
    have hs4 : (⟨s.guardCount + 1 - 1, s.inConfigMode⟩ : GState) = s := by
      cases s
      simp
    rw [hs4]
    rw [guardExit, if_neg hne]
    exact ⟨rfl, by simp⟩

/-- Claim C9: the configuration guard is reentrant and exception-safe.
(i) Every guarded call restores the guard counter to its pre-call value.
(ii) Any computation started with a positive guard counter — in
particular any nested guarded call — triggers no device-state transition
and leaves the guard state unchanged.  (iii) A guarded call entered with
counter 0 (and the device in run state) produces exactly the transition
trace [enter-configuration, exit-run-state-restore]: the device enters
configuration mode at the start and returns to run state when the
outermost call finishes — also when the wrapped body raises, since the
body's success flag is arbitrary here. -/
theorem configuration_guard_spec :
    (∀ (p : GProg) (s : GState),
        (runGuard (.guarded p) s).1.guardCount = s.guardCount) ∧
    (∀ (p : GProg) (s : GState), 1 ≤ s.guardCount →
        (runGuard p s).1 = s ∧ (runGuard p s).2.1 = []) ∧
    (∀ (p : GProg) (s : GState), s.guardCount = 0 → s.inConfigMode = false →
        (runGuard (.guarded p) s).2.1 = [.enterConfig, .exitConfig] ∧
        (runGuard (.guarded p) s).1 = s) := by
  refine ⟨fun p s => runGuard_count (.guarded p) s, runGuard_nested, ?_⟩
  intro p s h0 hcfg
  cases s with
  | mk gc cm =>
    simp only at h0 hcfg
    subst h0
    subst hcfg
    have he : guardEnter ⟨0, false⟩ = (⟨0, true⟩, [.enterConfig]) := rfl
    obtain ⟨hp1, hp2⟩ := runGuard_nested p ⟨1, true⟩ (by simp)
    simp only [runGuard, he, hp1, hp2]
    have hx : guardExit ⟨1 - 1, true⟩ = (⟨0, false⟩, [.exitConfig]) := rfl
    rw [hx]
    exact ⟨rfl, rfl⟩

/-- Witness for the C9 theorem: a nested guarded call whose body raises,
run from the idle state, and a guarded call entered with a positive
counter. -/
theorem configuration_guard_spec_witness :
    ((runGuard (.guarded (.guarded .fail)) ⟨0, false⟩).2.1
        = [.enterConfig, .exitConfig] ∧
      (runGuard (.guarded (.guarded .fail)) ⟨0, false⟩).1 = ⟨0, false⟩) ∧
    ((runGuard (.guarded .act) ⟨2, true⟩).1 = ⟨2, true⟩ ∧
      (runGuard (.guarded .act) ⟨2, true⟩).2.1 = []) ∧
    (runGuard (.guarded .fail) ⟨0, false⟩).1.guardCount = 0 := by
  exact ⟨configuration_guard_spec.2.2 (.guarded .fail) ⟨0, false⟩ rfl rfl,
    configuration_guard_spec.2.1 (.guarded .act) ⟨2, true⟩ (by decide),
    configuration_guard_spec.1 .fail ⟨0, false⟩⟩

/-! ## The segment memory allocator and program registry
(`TaborChannelPair`, `tabor.py`)

The device-facing state of one channel pair: the four parallel slot
arrays (`_segment_capacity`, `_segment_lengths`, `_segment_hashes`,
`_segment_references`), the program registry `_known_programs` (an
insertion-ordered name-to-slot-mapping association list; the compiled
`TaborProgram` object itself plays no role in the allocator claims and is
not modelled), the armed-program pointer `_current_program`, and the
fixed total sample capacity.  The resident sequencer-table mirrors
(`_sequencer_tables`, `_advanced_sequence_table`) only cache what was
downloaded and are not part of any claim quantified here. -/

abbrev SegHash := Int

/-- One input segment, reduced to the data the allocator reads: its
content hash and its sample length. -/
structure SegInput where
  hash : SegHash
  len  : Nat
deriving DecidableEq, Repr

structure PairState where
  segCapacity : List Nat
  segLengths  : List Nat
  segHashes   : List SegHash
  segRefs     : List Nat
  knownPrograms : List (String × List Int)
  currentProgram : Option String
  totalCapacity : Nat
deriving DecidableEq, Repr

/-- Errors surfaced by the channel-pair operations. -/
inductive TaborErr where
  | valueErr
  | memoryErrTotal
  | memoryErrFragment
  | attributeErr
  | keyErr
  | compatErr
  | pipeErr
deriving DecidableEq, Repr

/-- The opaque Python hash of the fixed idle segment written by
`clear` (`tabor.py` lines 584-590, 768). -/
def idleHash : SegHash := 0

/-- `TaborChannelPair.clear` (`tabor.py` lines 754-775): one 192-sample
idle slot with reference count 1, empty registry, nothing armed. -/
def clearState (total : Nat) : PairState where
  segCapacity := [192]
  segLengths := [192]
  segHashes := [idleHash]
  segRefs := [1]
  knownPrograms := []
  currentProgram := none
  totalCapacity := total

/-- Modelled from the spec: `find_positions`
(`qctoolkit/hardware/util.py`, whose source is not provided) — "look up
exact hash matches among existing slots" (spec §4.5): for every input
hash the index of a matching stored hash, `-1` when there is none. -/
def findPositions (table : List SegHash) (vals : List SegHash) : List Int :=
  vals.map (fun v =>
    match table.findIdx? (fun h => h == v) with
    | some i => (i : Int)
    | none => -1)

/-- NumPy index resolution: negative indices address from the end; an
index out of `[-n, n)` raises `IndexError` in NumPy and resolves to
nothing here (the invariant proved below keeps all program slot indices
in range, where the two agree). -/
def npResolve (n : Nat) (i : Int) : Option Nat :=
  if 0 ≤ i ∧ i < (n : Int) then some i.toNat
  else if -(n : Int) ≤ i ∧ i < 0 then some (i + n).toNat
  else none

def npTargets (n : Nat) (idxs : List Int) : List Nat :=
  idxs.filterMap (npResolve n)

/-- NumPy fancy-indexed in-place `+= 1` / `-= 1`: with repeated indices
the slot is bumped once, not once per occurrence.  The reference counts
are `uint32`; a decrement of a zero count would wrap around in NumPy,
while here it truncates at zero — the invariant proved below shows every
decremented slot holds a count `≥ 1`, where both semantics agree. -/
def npBump (refs : List Nat) (idxs : List Int) (up : Bool) : List Nat :=
  refs.mapIdx (fun j r =>
    if j ∈ npTargets refs.length idxs then (if up then r + 1 else r - 1) else r)

/-- Largest index `< n` whose reference count is positive (the NumPy
idiom `flatnonzero(refs > 0)[-1]`). -/
def lastRefAux (refs : List Nat) : Nat → Option Nat
  | 0 => none
  | n+1 =>
    match refs[n]? with
    | some r => if 0 < r then some n else lastRefAux refs n
    | none => lastRefAux refs n

/-- `reserved_indices[-1] + 1 if len(reserved_indices) else 0`
(`tabor.py` lines 813-814 and, over the true reference counts, the
`new_end` of `cleanup`, lines 925-927). -/
def firstFree (refs : List Nat) : Nat :=
  match lastRefAux refs refs.length with
  | some j => j + 1
  | none => 0

/-- Insertion sort (used in place of `np.argsort`, whose default
quicksort leaves the relative order of equal keys unspecified; here
equal keys are ordered by descending position, and no claim depends on
the tie order). -/
def insertSorted (le : α → α → Bool) (x : α) : List α → List α
  | [] => [x]
  | y :: ys => if le x y then x :: y :: ys else y :: insertSorted le x ys

def insertionSort (le : α → α → Bool) : List α → List α
  | [] => []
  | x :: xs => insertSorted le x (insertionSort le xs)

/-- Free-slot indices sorted by capacity, largest first
(`np.argsort(free_capacities)[::-1]`, `tabor.py` line 839). -/
def sortSlotsDescByCap (caps : List Nat) (l : List Nat) : List Nat :=
  insertionSort (fun a b =>
    decide (caps[b]?.getD 0 < caps[a]?.getD 0
      ∨ (caps[a]?.getD 0 = caps[b]?.getD 0 ∧ b ≤ a))) l

/-- Unknown segments ordered by length, largest first
(`np.argsort(segment_lengths[to_amend])[::-1]`, `tabor.py` line 835). -/
def sortSegDesc (l : List (Nat × SegInput)) : List (Nat × SegInput) :=
  insertionSort (fun a b =>
    decide (b.2.len < a.2.len ∨ (a.2.len = b.2.len ∧ b.1 ≤ a.1))) l

/-- First matching loop of `_find_place_for_segments_in_memory`
(`tabor.py` lines 819-831): for each still-unknown segment in ascending
index order, take the first free slot (ascending) whose capacity equals
the segment length; stop as soon as no free slot remains.  Returns the
`(waveform index, slot)` assignments and the remaining free slots. -/
def placeLoop1 (caps : List Nat) : List (Nat × SegInput) → List Nat →
    List (Nat × Nat) × List Nat
  | [], free => ([], free)
  | (i, seg) :: rest, free =>
    if free.length = 0 then ([], free)
    else
      match free.find? (fun j => caps[j]? == some seg.len) with
      | some j =>
        let r := placeLoop1 caps rest (free.erase j)
        ((i, j) :: r.1, r.2)
      | none => placeLoop1 caps rest free

/-- Second matching loop (`tabor.py` lines 833-849), a literal
transcription including its peculiar index arithmetic: the position of
the *last* free slot (in ascending slot order) whose capacity suffices —
`np.argmax` over the reversed fit mask, defaulting to position 0 when no
slot fits — is used to index the capacity-descending-sorted free-slot
list, and the resulting slot is used only if its capacity really
suffices. -/
def pickSlot (caps : List Nat) (free : List Nat) (L : Nat) : Option Nat :=
  let sorted := sortSlotsDescByCap caps free
  let revFlags := (free.map (fun j => decide (L ≤ caps[j]?.getD 0))).reverse
  let pos := (revFlags.findIdx? (fun b => b)).getD 0
  sorted[pos]?

def placeLoop2 (caps : List Nat) : List (Nat × SegInput) → List Nat →
    List (Nat × Nat) × List Nat
  | [], free => ([], free)
  | (i, seg) :: rest, free =>
    if free.length = 0 then ([], free)
    else
      match pickSlot caps free seg.len with
      | some fs =>
        if seg.len ≤ caps[fs]?.getD 0 then
          let r := placeLoop2 caps rest (free.erase fs)
          ((i, fs) :: r.1, r.2)
        else placeLoop2 caps rest free
      | none => placeLoop2 caps rest free

/-- The hash-match positions `waveform_to_segment` (`tabor.py`
line 789). -/
def hashMatches (st : PairState) (segs : List SegInput) : List Int :=
  findPositions st.segHashes (segs.map SegInput.hash)

/-- The hash-unmatched ("unknown") input segments with their waveform
indices, in ascending index order (`tabor.py` lines 791-793). -/
def unknownPairs (st : PairState) (segs : List SegInput) : List (Nat × SegInput) :=
  segs.enum.filter (fun p => (hashMatches st segs)[p.1]? == some (-1))

/-- `Σ (length + 16)` over the hash-unmatched input segments
(`to_upload_size`, `tabor.py` line 802). -/
def unknownPaddedSum (st : PairState) (segs : List SegInput) : Int :=
  (unknownPairs st segs).foldl (fun a p => a + (p.2.len : Int) + 16) 0

/-- `free_points_in_total` (`tabor.py` line 803): the total capacity
minus the capacities of all slots whose *current* reference count is
positive. -/
def freeTotalCapacity (st : PairState) : Int :=
  (st.totalCapacity : Int)
    - ((st.segCapacity.zip st.segRefs).filter (fun p => 0 < p.2)).foldl
        (fun a p => a + (p.1 : Int)) 0

/-- `new_reference_counter` (`tabor.py` lines 799-800): the reference
counts with every hash-matched slot logically bumped by one. -/
def bumpKnown (st : PairState) (segs : List SegInput) : List Nat :=
  npBump st.segRefs ((hashMatches st segs).filter (fun v => 0 ≤ v)) true

/-- `first_free` (`tabor.py` lines 813-814), over the bumped counts. -/
def planFirstFree (st : PairState) (segs : List SegInput) : Nat :=
  firstFree (bumpKnown st segs)

/-- `free_segments` (`tabor.py` lines 816-817) as the ascending list of
free slot indices strictly before `first_free`. -/
def planFree0 (st : PairState) (segs : List SegInput) : List Nat :=
  (List.range (planFirstFree st segs)).filter
    (fun j => (bumpKnown st segs)[j]? == some 0)

def planIns1Free1 (st : PairState) (segs : List SegInput) : List (Nat × Nat) × List Nat :=
  placeLoop1 st.segCapacity (unknownPairs st segs) (planFree0 st segs)

/-- The segments still unknown after the exact-capacity loop, ascending
(`to_amend` after `tabor.py` line 831). -/
def planRem1 (st : PairState) (segs : List SegInput) : List (Nat × SegInput) :=
  (unknownPairs st segs).filter
    (fun p => !(((planIns1Free1 st segs).1.map Prod.fst).contains p.1))

def planIns2 (st : PairState) (segs : List SegInput) : List (Nat × Nat) :=
  (placeLoop2 st.segCapacity (sortSegDesc (planRem1 st segs)) (planIns1Free1 st segs).2).1

/-- All reused-slot assignments (`to_insert`). -/
def planInserts (st : PairState) (segs : List SegInput) : List (Nat × Nat) :=
  (planIns1Free1 st segs).1 ++ planIns2 st segs

/-- The append remainder (`to_amend` after both loops), in ascending
waveform-index order. -/
def planAmends (st : PairState) (segs : List SegInput) : List (Nat × SegInput) :=
  (planRem1 st segs).filter (fun p => !((planIns2 st segs).map Prod.fst).contains p.1)

/-- `Σ (length + 16)` over the append remainder (`tabor.py` line 852). -/
def remainderPaddedSum (st : PairState) (segs : List SegInput) : Int :=
  (planAmends st segs).foldl (fun a p => a + (p.2.len : Int) + 16) 0

/-- `free_points_at_end` (`tabor.py` line 851): the capacity left
strictly after the last referenced slot. -/
def freePointsAtEnd (st : PairState) (segs : List SegInput) : Int :=
  (st.totalCapacity : Int)
    - ((st.segCapacity.take (planFirstFree st segs)).foldl (fun a c => a + (c : Int)) 0)

/-- The successful result of placement: the hash-match vector (`-1` for
segments that still need fresh data), the reused-slot assignments and
the append remainder. -/
structure PlacePlan where
  w2s : List Int
  inserts : List (Nat × Nat)
  amends : List (Nat × SegInput)
deriving DecidableEq, Repr

/-- `TaborChannelPair._find_place_for_segments_in_memory` (`tabor.py`
lines 777-858), assembled from the named stages above in the order of
the source: hash matching, the total-capacity check (plain
out-of-memory), the two matching loops, the append-capacity check
(fragmentation out-of-memory), and the assembled plan.  The method
writes none of the allocator arrays — every stage works on copies — so
it is a pure function of the state. -/
def findPlace (st : PairState) (segs : List SegInput) : Except TaborErr PlacePlan :=
  if freeTotalCapacity st < unknownPaddedSum st segs then
    .error .memoryErrTotal
  else if freePointsAtEnd st segs < remainderPaddedSum st segs then
    .error .memoryErrFragment
  else
    .ok ⟨hashMatches st segs, planInserts st segs, planAmends st segs⟩

/-! ### Registry operations -/

/-- Python dict assignment `self._known_programs[name] = mem`: replaces
in place when the key exists, appends otherwise. -/
def setProg (ps : List (String × List Int)) (name : String) (mem : List Int) :
    List (String × List Int) :=
  if (ps.lookup name).isSome then
    ps.map (fun p => if p.1 = name then (name, mem) else p)
  else ps ++ [(name, mem)]

/-- `TaborChannelPair.free_program` (`tabor.py` lines 616-623): pop the
registry entry (`KeyError` when absent, nothing changed), decrement the
reference count of every slot the program mapped to, and disarm if this
program was armed. -/
def freeProgramStep (st : PairState) (name : String) :
    PairState × Except TaborErr (List Int) :=
  match st.knownPrograms.lookup name with
  | none => (st, .error .keyErr)
  | some mem =>
    ({ st with
        knownPrograms := st.knownPrograms.filter (fun p => !(p.1 == name)),
        segRefs := npBump st.segRefs mem false,
        currentProgram := if st.currentProgram = some name then none
          else st.currentProgram }, .ok mem)

/-- `TaborChannelPair.change_armed_program` (`tabor.py` lines 967-1012)
restricted to the modelled state: the registry lookup (`KeyError` when
the name is absent, raised before any mutation) and the final
armed-pointer update.  The sequencer-table construction and downloads
mutate only the device and its table mirrors, which no claim here
quantifies over. -/
def changeArmedStep (st : PairState) (name : Option String) :
    PairState × Option TaborErr :=
  match name with
  | none => ({ st with currentProgram := none }, none)
  | some n =>
    match st.knownPrograms.lookup n with
    | none => (st, some .keyErr)
    | some _ => ({ st with currentProgram := some n }, none)

/-- `TaborChannelPair.cleanup` (`tabor.py` lines 923-934): truncate all
four slot arrays to one past the last referenced slot. -/
def cleanupStep (st : PairState) : PairState :=
  let newEnd := firstFree st.segRefs
  { st with
    segCapacity := st.segCapacity.take newEnd,
    segLengths := st.segLengths.take newEnd,
    segHashes := st.segHashes.take newEnd,
    segRefs := st.segRefs.take newEnd }

/-- `TaborChannelPair.remove` (`tabor.py` lines 936-945): `free_program`
followed by `cleanup` (skipped when the free raised). -/
def removeStep (st : PairState) (name : String) : PairState × Option TaborErr :=
  match freeProgramStep st name with
  | (st1, .ok _) => (cleanupStep st1, none)
  | (st1, .error e) => (st1, some e)

/-! ### upload -/

/-- `TaborChannelPair._upload_segment` (`tabor.py` lines 862-880) for
each reused slot in turn: a slot whose reference count is not zero or
whose capacity is too small raises `ValueError`; otherwise the slot's
length, reference count (set to 1) and hash are updated.  These calls
happen *outside* the `try` block of `upload`, so a failure aborts with
the earlier iterations already applied. -/
def applyInserts (segs : List SegInput) :
    List (Nat × Nat) → PairState → PairState × Option TaborErr
  | [], st => (st, none)
  | (i, slot) :: rest, st =>
    match st.segRefs[slot]?, st.segCapacity[slot]?, segs[i]? with
    | some r, some cap, some seg =>
      if 0 < r then (st, some .valueErr)
      else if cap < seg.len then (st, some .valueErr)
      else
        applyInserts segs rest { st with
          segLengths := st.segLengths.set slot seg.len,
          segRefs := st.segRefs.set slot 1,
          segHashes := st.segHashes.set slot seg.hash }
    | _, _, _ => (st, some .valueErr)

/-- `TaborChannelPair._amend_segments` (`tabor.py` lines 884-919),
restricted to the modelled state: all four arrays grow by the appended
segments, each new slot with reference count 1 and capacity equal to its
length.  The bulk-versus-individual length-declaration branch touches
only device commands. -/
def applyAmends (st : PairState) (amendSegs : List SegInput) : PairState :=
  { st with
    segCapacity := st.segCapacity ++ amendSegs.map SegInput.len,
    segLengths := st.segLengths ++ amendSegs.map SegInput.len,
    segHashes := st.segHashes ++ amendSegs.map SegInput.hash,
    segRefs := st.segRefs ++ amendSegs.map (fun _ => 1) }

/-- The final `waveform_to_segment` array: hash matches, overwritten by
the executed insert assignments and the append assignments.  A segment
whose planned insert slot was 0 would be skipped by the loop filter
`to_insert > 0` (`tabor.py` line 740) and keep the placeholder `-1`. -/
def finalW2S (w2s : List Int) (inserts amendPairs : List (Nat × Nat)) : List Int :=
  w2s.mapIdx (fun i v =>
    match inserts.lookup i with
    | some s => (s : Int)
    | none =>
      match amendPairs.lookup i with
      | some s => (s : Int)
      | none => v)

/-- The outcome of the pre-placement pipeline, carried as a value on the
operation: `make_compatible` runs before the forced free and reads no
allocator state (`compatError`); `TaborProgram` construction and
`sampled_segments` run inside the `try` block after the forced free and
read no allocator state either (`pipeError`); otherwise the sampled
segments reach placement. -/
inductive PipelineOutcome where
  | compatError
  | pipeError
  | segments (segs : List SegInput)
deriving DecidableEq, Repr

/-- The failure path of `upload` (`tabor.py` lines 732-736).  Without a
snapshot the exception propagates with the state as it was.  With a
snapshot (forced re-upload) the handler runs
`self._restore_program(name, to_restore[1])` — but the snapshot tuple
was built as `(self.free_program(name), self._current_program)`, so
`to_restore[1]` is the *armed-pointer string* (or `None`), not the saved
program memory.  `_restore_program` accesses
`program.waveform_to_segment` on it and dies with `AttributeError`
before mutating anything, and the armed-pointer assignment
`self._current_program = to_restore[0]` on the next line never runs:
nothing is restored. -/
def uploadFail (st1 : PairState) (restoring : Bool) (e : TaborErr) :
    PairState × Option TaborErr :=
  if restoring then (st1, some .attributeErr) else (st1, some e)

/-- The commit path of `upload` (`tabor.py` lines 738-750): bump the
reference counts of all hash-matched slots, upload into the reused slots
(`to_insert > 0` only), append the remainder, and register the program
under `name`. -/
def uploadCommit (st1 : PairState) (name : String) (segs : List SegInput)
    (plan : PlacePlan) : PairState × Option TaborErr :=
  let st2 : PairState := { st1 with
    segRefs := npBump st1.segRefs (plan.w2s.filter (fun v => 0 ≤ v)) true }
  let insertsRun := plan.inserts.filter (fun p => 0 < p.2)
  match applyInserts segs insertsRun st2 with
  | (st3, some e) => (st3, some e)
  | (st3, none) =>
    let base := st3.segCapacity.length
    let st4 := applyAmends st3 (plan.amends.map Prod.snd)
    let amendPairs := (plan.amends.map Prod.fst).zip
      ((List.range (plan.amends.map Prod.snd).length).map (fun k => base + k))
    ({ st4 with
        knownPrograms := setProg st4.knownPrograms name
          (finalW2S plan.w2s insertsRun amendPairs) }, none)

/-- The part of `upload` inside the `try` block (`tabor.py`
lines 712-750). -/
def uploadTry (st1 : PairState) (name : String) (pipeline : PipelineOutcome)
    (restoring : Bool) : PairState × Option TaborErr :=
  match pipeline with
  | .compatError => (st1, some .compatErr)
  | .pipeError => uploadFail st1 restoring .pipeErr
  | .segments segs =>
    match findPlace st1 segs with
    | .error e => uploadFail st1 restoring e
    | .ok plan => uploadCommit st1 name segs plan

/-- `TaborChannelPair.upload` (`tabor.py` lines 680-750): argument
checks and `make_compatible` first (`compatError`), then the
duplicate-name check — `ValueError` without `force`, `free_program`
first with `force` — and then the guarded pipeline. -/
def uploadStep (st : PairState) (name : String) (pipeline : PipelineOutcome)
    (force : Bool) : PairState × Option TaborErr :=
  match pipeline with
  | .compatError => (st, some .compatErr)
  | _ =>
    if (st.knownPrograms.lookup name).isSome then
      if force then
        match freeProgramStep st name with
        | (st1, .ok _) => uploadTry st1 name pipeline true
        | (st1, .error _) => (st1, some .keyErr)
      else (st, some .valueErr)
    else uploadTry st name pipeline false

/-! ### The operation alphabet and reachability (claim C10) -/

inductive PairOp where
  | upload (name : String) (pipeline : PipelineOutcome) (force : Bool)
  | freeProgram (name : String)
  | remove (name : String)
  | cleanup
  | changeArmed (name : Option String)
deriving DecidableEq, Repr

def applyOp (st : PairState) : PairOp → PairState
  | .upload n p f => (uploadStep st n p f).1
  | .freeProgram n => (freeProgramStep st n).1
  | .remove n => (removeStep st n).1
  | .cleanup => cleanupStep st
  | .changeArmed n => (changeArmedStep st n).1

/-- Every state reachable from `clear()` by a sequence of operations. -/
def runOps (total : Nat) (ops : List PairOp) : PairState :=
  ops.foldl applyOp (clearState total)

/-! ## Claim C2: placement out-of-memory behaviour -/

/-- Claim C2: `_find_place_for_segments_in_memory` raises the plain
out-of-memory error when `Σ(length+16)` over the hash-unmatched input
segments exceeds the total free capacity; otherwise it raises the
distinct fragmentation error exactly when the padded size of the append
remainder exceeds the capacity available strictly after the last
referenced slot; and in every failing case the allocator state is
untouched — placement performs no destructive writes (it is a pure
function of the state here, mirroring that the source method never
assigns to the slot arrays), so a failing `upload` of an unregistered
name returns with the state exactly as it was. -/
theorem find_place_out_of_memory_spec :
    ∀ (st : PairState) (segs : List SegInput),
      (freeTotalCapacity st < unknownPaddedSum st segs →
        findPlace st segs = .error .memoryErrTotal) ∧
      (unknownPaddedSum st segs ≤ freeTotalCapacity st →
        (findPlace st segs = .error .memoryErrFragment ↔
          freePointsAtEnd st segs < remainderPaddedSum st segs)) ∧
      (∀ (name : String) (force : Bool) (e : TaborErr),
        (st.knownPrograms.lookup name).isSome = false →
        findPlace st segs = .error e →
        uploadStep st name (.segments segs) force = (st, some e)) := by
  intro st segs
  refine ⟨?_, ?_, ?_⟩
  · intro h
    rw [findPlace, if_pos h]
  · intro h
    rw [findPlace, if_neg (not_lt.mpr h)]
    constructor
    · intro he
      by_contra hlt
      rw [if_neg hlt] at he
      exact absurd he (by simp)
    · intro hlt
      rw [if_pos hlt]
  · intro name force e hname hp
    simp only [uploadStep, hname, Bool.false_eq_true, if_false, uploadTry, hp, uploadFail,
      if_false]

/-- Witness for the C2 theorem: a fresh allocator of capacity 1000
rejects a 960-sample segment outright; an allocator of capacity 1100
with a 150-sample free hole between two referenced slots accepts a
256-sample segment by total capacity but rejects it as fragmentation;
and the failing upload returns the state unchanged. -/
theorem find_place_out_of_memory_spec_witness :
    findPlace (clearState 1000) [⟨99, 960⟩] = .error .memoryErrTotal ∧
    findPlace ⟨[192, 150, 500], [192, 150, 500], [0, 7, 8], [1, 0, 1], [], none, 1100⟩
        [⟨99, 256⟩] = .error .memoryErrFragment ∧
    uploadStep ⟨[192, 150, 500], [192, 150, 500], [0, 7, 8], [1, 0, 1], [], none, 1100⟩
        "p" (.segments [⟨99, 256⟩]) false
      = (⟨[192, 150, 500], [192, 150, 500], [0, 7, 8], [1, 0, 1], [], none, 1100⟩,
         some .memoryErrFragment) := by
  refine ⟨(find_place_out_of_memory_spec (clearState 1000) [⟨99, 960⟩]).1 (by decide),
    ((find_place_out_of_memory_spec _ [⟨99, 256⟩]).2.1 (by decide)).mpr (by decide),
    (find_place_out_of_memory_spec _ [⟨99, 256⟩]).2.2 "p" false .memoryErrFragment
      (by decide) ?_⟩
  exact ((find_place_out_of_memory_spec _ [⟨99, 256⟩]).2.1 (by decide)).mpr (by decide)

/-! ## Claim C1: rollback of a failed forced re-upload -/

/-- Claim C1 is *right about the intent but the code is broken*: the
failing input below forcibly re-uploads the registered program "p"
(occupying slot 1, armed) with a segment too large for the free memory.
Placement raises, the rollback handler runs — and dies, because the
snapshot tuple `(self.free_program(name), self._current_program)` is
consumed in swapped order: `_restore_program(name, to_restore[1])`
receives the armed-pointer string where the saved `TaborProgramMemory`
belongs (its annotated type), raises `AttributeError` on
`program.waveform_to_segment`, and the armed-pointer assignment
`self._current_program = to_restore[0]` never executes.  After the
failed forced re-upload the registry entry is gone, slot 1's reference
count is 0 instead of 1, and the armed pointer is `None` instead of
"p" — not the pre-call state the claim (and the code's own comment
"save old program to restore in on error") promises. -/
theorem upload_forced_rollback_is_broken :
    uploadStep ⟨[192, 192], [192, 192], [0, 5], [1, 1], [("p", [1])], some "p", 400⟩
        "p" (.segments [⟨6, 320⟩]) true
      = (⟨[192, 192], [192, 192], [0, 5], [1, 0], [], none, 400⟩, some .attributeErr) ∧
    (⟨[192, 192], [192, 192], [0, 5], [1, 0], [], none, 400⟩ : PairState)
      ≠ ⟨[192, 192], [192, 192], [0, 5], [1, 1], [("p", [1])], some "p", 400⟩ := by
  exact ⟨by decide, by decide⟩

/-! ## Claim C10: the reserved idle slot — supporting lemmas -/

theorem lookup_mem {β : Type} {l : List (String × β)} {a : String} {b : β}
    (h : l.lookup a = some b) : (a, b) ∈ l := by
  induction l with
  | nil => simp [List.lookup] at h
  | cons x xs ih =>
    obtain ⟨k, v⟩ := x
    rw [List.lookup] at h
    cases hak : a == k with
    | true =>
      rw [hak] at h
      simp at h hak
      subst hak h
      exact List.mem_cons_self _ _
    | false =>
      rw [hak] at h
      exact List.mem_cons_of_mem _ (ih h)

theorem natLookup_mem {β : Type} {l : List (Nat × β)} {a : Nat} {b : β}
    (h : l.lookup a = some b) : (a, b) ∈ l := by
  induction l with
  | nil => simp [List.lookup] at h
  | cons x xs ih =>
    obtain ⟨k, v⟩ := x
    rw [List.lookup] at h
    cases hak : a == k with
    | true =>
      rw [hak] at h
      simp at h hak
      subst hak h
      exact List.mem_cons_self _ _
    | false =>
      rw [hak] at h
      exact List.mem_cons_of_mem _ (ih h)

theorem natLookup_eq_none {β : Type} {l : List (Nat × β)} {a : Nat}
    (h : a ∉ l.map Prod.fst) : l.lookup a = none := by
  induction l with
  | nil => rfl
  | cons x xs ih =>
    obtain ⟨k, v⟩ := x
    simp only [List.map_cons, List.mem_cons] at h
    push_neg at h
    rw [List.lookup]
    have : (a == k) = false := by
      simp [h.1]
    rw [this]
    exact ih h.2

theorem natLookup_isSome {β : Type} {l : List (Nat × β)} {a : Nat}
    (h : a ∈ l.map Prod.fst) : (l.lookup a).isSome := by
  induction l with
  | nil => simp at h
  | cons x xs ih =>
    obtain ⟨k, v⟩ := x
    rw [List.lookup]
    cases hak : a == k with
    | true => rfl
    | false =>
      apply ih
      simp only [List.map_cons, List.mem_cons] at h
      rcases h with h | h
      · simp at hak
        exact absurd h hak
      · exact h

theorem strLookup_eq_none {β : Type} {l : List (String × β)} {a : String}
    (h : a ∉ l.map Prod.fst) : l.lookup a = none := by
  induction l with
  | nil => rfl
  | cons x xs ih =>
    obtain ⟨k, v⟩ := x
    simp only [List.map_cons, List.mem_cons] at h
    push_neg at h
    rw [List.lookup]
    have : (a == k) = false := by
      simp [h.1]
    rw [this]
    exact ih h.2

theorem findIdx?_lt_length {α : Type} {l : List α} {p : α → Bool} {i : Nat}
    (h : l.findIdx? p = some i) : i < l.length := by
  induction l generalizing i with
  | nil => simp [List.findIdx?] at h
  | cons x xs ih =>
    rw [List.findIdx?_cons] at h
    by_cases hx : p x
    · simp [hx] at h
      simp [← h]
    · simp [hx] at h
      obtain ⟨j, hj, rfl⟩ := h
      have := ih hj
      simp
      omega

theorem insertSorted_perm {α : Type} (le : α → α → Bool) (x : α) (l : List α) :
    (insertSorted le x l).Perm (x :: l) := by
  induction l with
  | nil => simp [insertSorted]
  | cons y ys ih =>
    rw [insertSorted]
    split
    · exact List.Perm.refl _
    · exact (ih.cons y).trans (List.Perm.swap x y ys)

theorem insertionSort_perm {α : Type} (le : α → α → Bool) (l : List α) :
    (insertionSort le l).Perm l := by
  induction l with
  | nil => exact List.Perm.refl _
  | cons x xs ih =>
    rw [insertionSort]
    exact (insertSorted_perm le x _).trans (List.Perm.cons x ih)

theorem npBump_length (refs : List Nat) (idxs : List Int) (up : Bool) :
    (npBump refs idxs up).length = refs.length := by
  simp [npBump]

theorem npBump_getElem (refs : List Nat) (idxs : List Int) (up : Bool) (j : Nat) :
    (npBump refs idxs up)[j]? = (refs[j]?).map (fun r =>
      if j ∈ npTargets refs.length idxs then (if up then r + 1 else r - 1) else r) := by
  simp [npBump, List.getElem?_mapIdx]

theorem npTargets_mem_iff {n : Nat} {idxs : List Int}
    (hvalid : ∀ s ∈ idxs, 0 ≤ s ∧ s < (n : Int)) (j : Nat) :
    j ∈ npTargets n idxs ↔ (j : Int) ∈ idxs := by
  rw [npTargets]
  simp only [List.mem_filterMap]
  constructor
  · rintro ⟨s, hs, hres⟩
    obtain ⟨h0, hn⟩ := hvalid s hs
    rw [npResolve, if_pos ⟨h0, hn⟩] at hres
    obtain rfl : s.toNat = j := by simpa using hres
    rwa [Int.toNat_of_nonneg h0]
  · intro hj
    refine ⟨(j : Int), hj, ?_⟩
    rw [npResolve, if_pos ⟨Int.ofNat_nonneg j, (hvalid _ hj).2⟩]
    simp

theorem lastRefAux_some {refs : List Nat} {n j : Nat}
    (h : lastRefAux refs n = some j) :
    j < n ∧ (∃ r, refs[j]? = some r ∧ 0 < r) := by
  induction n generalizing j with
  | zero => simp [lastRefAux] at h
  | succ m ih =>
    rw [lastRefAux] at h
    cases hm : refs[m]? with
    | some r =>
      simp only [hm] at h
      by_cases hr : 0 < r
      · rw [if_pos hr] at h
        obtain rfl : m = j := by simpa using h
        exact ⟨Nat.lt_succ_self m, r, hm, hr⟩
      · rw [if_neg hr] at h
        obtain ⟨h1, h2⟩ := ih h
        exact ⟨Nat.lt_succ_of_lt h1, h2⟩
    | none =>
      simp only [hm] at h
      obtain ⟨h1, h2⟩ := ih h
      exact ⟨Nat.lt_succ_of_lt h1, h2⟩

theorem lastRefAux_ge {refs : List Nat} {j r : Nat}
    (hj : refs[j]? = some r) (hr : 0 < r) :
    ∀ n, j < n → ∃ j', lastRefAux refs n = some j' ∧ j ≤ j' := by
  intro n
  induction n with
  | zero => omega
  | succ m ih =>
    intro hjm
    rw [lastRefAux]
    cases hm : refs[m]? with
    | some rm =>
      by_cases hrm : 0 < rm
      · simp only [hm, if_pos hrm]
        exact ⟨m, rfl, by omega⟩
      · simp only [hm, if_neg hrm]
        rcases Nat.lt_or_ge j m with hlt | hge
        · exact ih hlt
        · obtain rfl : j = m := by omega
          rw [hj] at hm
          obtain rfl : r = rm := by simpa using hm
          omega
    | none =>
      simp only [hm]
      rcases Nat.lt_or_ge j m with hlt | hge
      · exact ih hlt
      · obtain rfl : j = m := by omega
        rw [hj] at hm
        simp at hm

theorem firstFree_le_length (refs : List Nat) : firstFree refs ≤ refs.length := by
  cases h : lastRefAux refs refs.length with
  | none => simp [firstFree, h]
  | some j =>
    have := (lastRefAux_some h).1
    simp only [firstFree, h]
    omega

theorem lt_firstFree_of_ref_pos {refs : List Nat} {j r : Nat}
    (hj : refs[j]? = some r) (hr : 0 < r) : j < firstFree refs := by
  have hjl : j < refs.length := (List.getElem?_eq_some.mp hj).1
  obtain ⟨j', hj', hle⟩ := lastRefAux_ge hj hr refs.length hjl
  simp only [firstFree, hj']
  omega

/-- How many registered programs reference slot `j`. -/
def progUses (ps : List (String × List Int)) (j : Nat) : Nat :=
  (ps.filter (fun p => decide ((j : Int) ∈ p.2))).length

/-- The inductive invariant of the channel-pair state: the four slot
arrays have equal length, slot 0 holds the idle segment (its hash,
capacity 192 and length 192), every registered slot index is in range,
and every slot's reference count dominates the number of programs using
it — slot 0 by one extra for the reserved idle reference. -/
structure Inv (st : PairState) : Prop where
  capLen : st.segCapacity.length = st.segRefs.length
  lenLen : st.segLengths.length = st.segRefs.length
  hashLen : st.segHashes.length = st.segRefs.length
  hash0 : st.segHashes[0]? = some idleHash
  cap0 : st.segCapacity[0]? = some 192
  len0 : st.segLengths[0]? = some 192
  slotsValid : ∀ p ∈ st.knownPrograms, ∀ s ∈ p.2, 0 ≤ s ∧ s < (st.segRefs.length : Int)
  refCount : ∀ j r, st.segRefs[j]? = some r →
    progUses st.knownPrograms j + (if j = 0 then 1 else 0) ≤ r

theorem Inv.refsNonempty {st : PairState} (h : Inv st) : st.segRefs ≠ [] := by
  intro hnil
  have h0 := h.hash0
  have hlen := h.hashLen
  rw [hnil] at hlen
  simp at hlen
  rw [hlen] at h0
  simp at h0

theorem Inv.ref0_pos {st : PairState} (h : Inv st) :
    ∃ r, st.segRefs[0]? = some r ∧ 1 ≤ r := by
  have hne := h.refsNonempty
  have h0 : 0 < st.segRefs.length := List.length_pos.mpr hne
  obtain ⟨r, hr⟩ : ∃ r, st.segRefs[0]? = some r := by
    rw [List.getElem?_eq_getElem h0]
    exact ⟨_, rfl⟩
  have hc := h.refCount 0 r hr
  have hc' : progUses st.knownPrograms 0 + 1 ≤ r := by simpa using hc
  exact ⟨r, hr, by omega⟩

theorem progUses_filter_le (ps : List (String × List Int))
    (q : String × List Int → Bool) (j : Nat) :
    progUses (ps.filter q) j ≤ progUses ps j := by
  rw [progUses, progUses]
  exact ((List.filter_sublist ps).filter _).length_le

theorem length_filter_lt_of_mem {α : Type} {l : List α} {x : α} (hx : x ∈ l)
    {q u : α → Bool} (hqx : q x = false) (hux : u x = true) :
    ((l.filter q).filter u).length < (l.filter u).length := by
  induction l with
  | nil => simp at hx
  | cons p rest ih =>
    rcases List.mem_cons.mp hx with heq | htail
    · subst heq
      rw [List.filter_cons, hqx]
      simp only [Bool.false_eq_true, if_false]
      rw [List.filter_cons, hux]
      simp only [if_true, List.length_cons]
      have : ((rest.filter q).filter u).length ≤ (rest.filter u).length :=
        ((List.filter_sublist rest).filter u).length_le
      omega
    · rw [List.filter_cons]
      by_cases hqp : q p
      · rw [if_pos hqp, List.filter_cons, List.filter_cons]
        by_cases hup : u p
        · rw [if_pos hup, if_pos hup]
          simp only [List.length_cons]
          have := ih htail
          omega
        · rw [if_neg hup, if_neg hup]
          exact ih htail
      · rw [if_neg hqp, List.filter_cons]
        by_cases hup : u p
        · rw [if_pos hup]
          simp only [List.length_cons]
          have := ih htail
          omega
        · rw [if_neg hup]
          exact ih htail

theorem progUses_filter_name_lt (ps : List (String × List Int))
    (name : String) (mem : List Int) (j : Nat)
    (hmem : (name, mem) ∈ ps) (hj : (j : Int) ∈ mem) :
    progUses (ps.filter (fun p => !(p.1 == name))) j < progUses ps j := by
  rw [progUses, progUses]
  exact length_filter_lt_of_mem hmem (by simp) (by simpa using hj)

theorem setProg_append (ps : List (String × List Int)) (name : String) (mem : List Int)
    (h : name ∉ ps.map Prod.fst) : setProg ps name mem = ps ++ [(name, mem)] := by
  rw [setProg, strLookup_eq_none h]
  rfl

theorem progUses_append_single (ps : List (String × List Int)) (name : String)
    (mem : List Int) (j : Nat) :
    progUses (ps ++ [(name, mem)]) j
      = progUses ps j + (if (j : Int) ∈ mem then 1 else 0) := by
  rw [progUses, progUses, List.filter_append, List.length_append, List.filter_cons]
  split
  · rename_i hc
    simp only [decide_eq_true_eq] at hc
    rw [if_pos hc]
    simp
  · rename_i hc
    simp only [decide_eq_true_eq] at hc
    rw [if_neg hc]
    simp

/-- `clear()` establishes the invariant. -/
theorem inv_clearState (total : Nat) : Inv (clearState total) := by
  refine ⟨rfl, rfl, rfl, rfl, rfl, rfl, ?_, ?_⟩
  · intro p hp
    simp [clearState] at hp
  · intro j r hr
    match j, hr with
    | 0, hr =>
      have h1 : 1 = r := by simpa [clearState] using hr
      rw [← h1]
      simp [progUses, clearState]
    | n+1, hr => simp [clearState] at hr

/-- `free_program` preserves the invariant. -/
theorem inv_freeProgramStep {st : PairState} (h : Inv st) (name : String) :
    Inv (freeProgramStep st name).1 := by
  cases hl : st.knownPrograms.lookup name with
  | none =>
    simp only [freeProgramStep, hl]
    exact h
  | some mem =>
    simp only [freeProgramStep, hl]
    have hpmem : (name, mem) ∈ st.knownPrograms := lookup_mem hl
    have hvalid : ∀ s ∈ mem, 0 ≤ s ∧ s < (st.segRefs.length : Int) :=
      h.slotsValid _ hpmem
    refine ⟨?_, ?_, ?_, h.hash0, h.cap0, h.len0, ?_, ?_⟩
    · simpa [npBump_length] using h.capLen
    · simpa [npBump_length] using h.lenLen
    · simpa [npBump_length] using h.hashLen
    · intro p hp s hs
      simp only [npBump_length]
      exact h.slotsValid p (List.mem_of_mem_filter hp) s hs
    · intro j r hr
      show progUses (st.knownPrograms.filter (fun p => !(p.1 == name))) j
          + (if j = 0 then 1 else 0) ≤ r
      rw [npBump_getElem] at hr
      cases hq : st.segRefs[j]? with
      | none => rw [hq] at hr; simp at hr
      | some r0 =>
        rw [hq] at hr
        have hr' : (if j ∈ npTargets st.segRefs.length mem then r0 - 1 else r0) = r := by
          simpa using hr
        have hold := h.refCount j r0 hq
        by_cases hin : j ∈ npTargets st.segRefs.length mem
        · rw [if_pos hin] at hr'
          have hjmem : (j : Int) ∈ mem := (npTargets_mem_iff hvalid j).mp hin
          have hlt := progUses_filter_name_lt st.knownPrograms name mem j hpmem hjmem
          omega
        · rw [if_neg hin] at hr'
          have hle := progUses_filter_le st.knownPrograms (fun p => !(p.1 == name)) j
          omega

/-- `change_armed_program` preserves the invariant. -/
theorem inv_changeArmedStep {st : PairState} (h : Inv st) (name : Option String) :
    Inv (changeArmedStep st name).1 := by
  cases name with
  | none =>
    exact ⟨h.capLen, h.lenLen, h.hashLen, h.hash0, h.cap0, h.len0, h.slotsValid, h.refCount⟩
  | some n =>
    cases hl : st.knownPrograms.lookup n with
    | none =>
      simp only [changeArmedStep, hl]
      exact h
    | some m =>
      simp only [changeArmedStep, hl]
      exact ⟨h.capLen, h.lenLen, h.hashLen, h.hash0, h.cap0, h.len0, h.slotsValid, h.refCount⟩

/-- `cleanup` preserves the invariant. -/
theorem inv_cleanupStep {st : PairState} (h : Inv st) : Inv (cleanupStep st) := by
  have hle := firstFree_le_length st.segRefs
  obtain ⟨r0, hr0, hr0pos⟩ := h.ref0_pos
  have h0lt : 0 < firstFree st.segRefs := lt_firstFree_of_ref_pos hr0 hr0pos
  have htake : ∀ (l : List Nat) (j : Nat), j < firstFree st.segRefs →
      (l.take (firstFree st.segRefs))[j]? = l[j]? := by
    intro l j hj
    rw [List.getElem?_take]
    rw [if_pos hj]
  refine ⟨?_, ?_, ?_, ?_, ?_, ?_, ?_, ?_⟩
  · simp only [cleanupStep, List.length_take]
    have := h.capLen
    omega
  · simp only [cleanupStep, List.length_take]
    have := h.lenLen
    omega
  · simp only [cleanupStep, List.length_take]
    have := h.hashLen
    omega
  · show (st.segHashes.take (firstFree st.segRefs))[0]? = some idleHash
    rw [List.getElem?_take, if_pos h0lt]
    exact h.hash0
  · show (st.segCapacity.take (firstFree st.segRefs))[0]? = some 192
    rw [List.getElem?_take, if_pos h0lt]
    exact h.cap0
  · show (st.segLengths.take (firstFree st.segRefs))[0]? = some 192
    rw [List.getElem?_take, if_pos h0lt]
    exact h.len0
  · intro p hp s hs
    obtain ⟨hs0, hslt⟩ := h.slotsValid p hp s hs
    have hjlen : s.toNat < st.segRefs.length := by omega
    obtain ⟨rs, hrs⟩ : ∃ r, st.segRefs[s.toNat]? = some r := by
      rw [List.getElem?_eq_getElem hjlen]
      exact ⟨_, rfl⟩
    have huse : 1 ≤ progUses st.knownPrograms s.toNat := by
      rw [progUses]
      have hmem2 : p ∈ st.knownPrograms.filter (fun q => decide ((s.toNat : Int) ∈ q.2)) := by
        rw [List.mem_filter]
        exact ⟨hp, by simpa [Int.toNat_of_nonneg hs0] using hs⟩
      exact List.length_pos.mpr (List.ne_nil_of_mem hmem2)
    have hcnt := h.refCount s.toNat rs hrs
    have hlt : s.toNat < firstFree st.segRefs :=
      lt_firstFree_of_ref_pos hrs (by omega)
    refine ⟨hs0, ?_⟩
    simp only [cleanupStep, List.length_take]
    omega
  · intro j r hr
    simp only [cleanupStep] at hr
    rw [List.getElem?_take] at hr
    by_cases hj : j < firstFree st.segRefs
    · rw [if_pos hj] at hr
      exact h.refCount j r hr
    · rw [if_neg hj] at hr
      simp at hr

/-- `remove` preserves the invariant. -/
theorem inv_removeStep {st : PairState} (h : Inv st) (name : String) :
    Inv (removeStep st name).1 := by
  rw [removeStep]
  rcases hf : freeProgramStep st name with ⟨st1, res⟩
  have h1 : Inv st1 := by
    have := inv_freeProgramStep h name
    rw [hf] at this
    exact this
  cases res with
  | ok mem => exact inv_cleanupStep h1
  | error e => exact h1

/-! ### Structure of the placement plan -/

theorem unknownPairs_mem {st : PairState} {segs : List SegInput}
    {pr : Nat × SegInput} (h : pr ∈ unknownPairs st segs) :
    segs[pr.1]? = some pr.2 ∧ (hashMatches st segs)[pr.1]? = some (-1) := by
  rw [unknownPairs, List.mem_filter] at h
  exact ⟨List.mem_enum_iff_getElem?.mp h.1, by simpa using h.2⟩

theorem unknownPairs_fst_nodup (st : PairState) (segs : List SegInput) :
    ((unknownPairs st segs).map Prod.fst).Nodup := by
  have hsub : ((unknownPairs st segs).map Prod.fst).Sublist (segs.enum.map Prod.fst) :=
    (List.filter_sublist _).map Prod.fst
  rw [List.enum_map_fst] at hsub
  exact hsub.nodup (List.nodup_range _)

theorem pickSlot_mem {caps free : List Nat} {L fs : Nat}
    (h : pickSlot caps free L = some fs) : fs ∈ free := by
  rw [pickSlot] at h
  have hmem := List.getElem?_mem h
  rw [sortSlotsDescByCap] at hmem
  exact (insertionSort_perm _ free).mem_iff.mp hmem

theorem placeLoop1_spec (caps : List Nat) (pairs : List (Nat × SegInput)) :
    ∀ (free : List Nat), free.Nodup →
    ((placeLoop1 caps pairs free).2.Nodup ∧
      (∀ x ∈ (placeLoop1 caps pairs free).2, x ∈ free)) ∧
    (∀ pr ∈ (placeLoop1 caps pairs free).1,
      pr.2 ∈ free ∧ pr.2 ∉ (placeLoop1 caps pairs free).2 ∧
      ∃ seg, (pr.1, seg) ∈ pairs ∧ caps[pr.2]? = some seg.len) ∧
    ((placeLoop1 caps pairs free).1.map Prod.snd).Nodup ∧
    ((placeLoop1 caps pairs free).1.map Prod.fst).Sublist (pairs.map Prod.fst) := by
  induction pairs with
  | nil =>
    intro free hnd
    refine ⟨⟨hnd, fun x hx => hx⟩, ?_, ?_, ?_⟩ <;> simp [placeLoop1]
  | cons hd rest ih =>
    obtain ⟨i, seg⟩ := hd
    intro free hnd
    by_cases hf : free.length = 0
    · have hres : placeLoop1 caps ((i, seg) :: rest) free = ([], free) := by
        rw [placeLoop1, if_pos hf]
      rw [hres]
      refine ⟨⟨hnd, fun x hx => hx⟩, by simp, by simp, by simp⟩
    · cases hfind : free.find? (fun j => caps[j]? == some seg.len) with
      | some j =>
        have hjf : j ∈ free := List.mem_of_find?_eq_some hfind
        have hcap : caps[j]? = some seg.len := by
          have := List.find?_some hfind
          simpa using this
        have hres : placeLoop1 caps ((i, seg) :: rest) free =
            ((i, j) :: (placeLoop1 caps rest (free.erase j)).1,
              (placeLoop1 caps rest (free.erase j)).2) := by
          rw [placeLoop1, if_neg hf, hfind]
        obtain ⟨⟨hnd', hsub'⟩, hins', hsnd', hfst'⟩ := ih (free.erase j) (hnd.erase j)
        rw [hres]
        refine ⟨⟨hnd', fun x hx => List.mem_of_mem_erase (hsub' x hx)⟩, ?_, ?_, ?_⟩
        · intro pr hpr
          rcases List.mem_cons.mp hpr with rfl | hpr'
          · refine ⟨hjf, ?_, seg, List.mem_cons_self _ _, hcap⟩
            intro hmem
            exact hnd.not_mem_erase (hsub' j hmem)
          · obtain ⟨h1, h2, seg', h3, h4⟩ := hins' pr hpr'
            exact ⟨List.mem_of_mem_erase h1, h2, seg', List.mem_cons_of_mem _ h3, h4⟩
        · simp only [List.map_cons]
          rw [List.nodup_cons]
          refine ⟨?_, hsnd'⟩
          intro hmem
          obtain ⟨pr', hpr', hval⟩ := List.mem_map.mp hmem
          obtain ⟨h1, -, -⟩ := hins' pr' hpr'
          rw [hval] at h1
          exact hnd.not_mem_erase h1
        · simp only [List.map_cons]
          exact hfst'.cons₂ i
      | none =>
        have hres : placeLoop1 caps ((i, seg) :: rest) free = placeLoop1 caps rest free := by
          rw [placeLoop1, if_neg hf, hfind]
        obtain ⟨⟨hnd', hsub'⟩, hins', hsnd', hfst'⟩ := ih free hnd
        rw [hres]
        refine ⟨⟨hnd', hsub'⟩, ?_, hsnd', ?_⟩
        · intro pr hpr
          obtain ⟨h1, h2, seg', h3, h4⟩ := hins' pr hpr
          exact ⟨h1, h2, seg', List.mem_cons_of_mem _ h3, h4⟩
        · exact hfst'.cons i

theorem placeLoop2_spec (caps : List Nat) (pairs : List (Nat × SegInput)) :
    ∀ (free : List Nat), free.Nodup →
    ((placeLoop2 caps pairs free).2.Nodup ∧
      (∀ x ∈ (placeLoop2 caps pairs free).2, x ∈ free)) ∧
    (∀ pr ∈ (placeLoop2 caps pairs free).1,
      pr.2 ∈ free ∧ pr.2 ∉ (placeLoop2 caps pairs free).2 ∧
      ∃ seg, (pr.1, seg) ∈ pairs ∧ seg.len ≤ caps[pr.2]?.getD 0) ∧
    ((placeLoop2 caps pairs free).1.map Prod.snd).Nodup ∧
    ((placeLoop2 caps pairs free).1.map Prod.fst).Sublist (pairs.map Prod.fst) := by
  induction pairs with
  | nil =>
    intro free hnd
    refine ⟨⟨hnd, fun x hx => hx⟩, ?_, ?_, ?_⟩ <;> simp [placeLoop2]
  | cons hd rest ih =>
    obtain ⟨i, seg⟩ := hd
    intro free hnd
    by_cases hf : free.length = 0
    · have hres : placeLoop2 caps ((i, seg) :: rest) free = ([], free) := by
        rw [placeLoop2, if_pos hf]
      rw [hres]
      refine ⟨⟨hnd, fun x hx => hx⟩, by simp, by simp, by simp⟩
    · cases hpick : pickSlot caps free seg.len with
      | some fs =>
        have hfsf : fs ∈ free := pickSlot_mem hpick
        by_cases hle : seg.len ≤ caps[fs]?.getD 0
        · have hres : placeLoop2 caps ((i, seg) :: rest) free =
              ((i, fs) :: (placeLoop2 caps rest (free.erase fs)).1,
                (placeLoop2 caps rest (free.erase fs)).2) := by
            rw [placeLoop2, if_neg hf]
            simp only [hpick]
            rw [if_pos hle]
          obtain ⟨⟨hnd', hsub'⟩, hins', hsnd', hfst'⟩ := ih (free.erase fs) (hnd.erase fs)
          rw [hres]
          refine ⟨⟨hnd', fun x hx => List.mem_of_mem_erase (hsub' x hx)⟩, ?_, ?_, ?_⟩
          · intro pr hpr
            rcases List.mem_cons.mp hpr with rfl | hpr'
            · refine ⟨hfsf, ?_, seg, List.mem_cons_self _ _, hle⟩
              intro hmem
              exact hnd.not_mem_erase (hsub' fs hmem)
            · obtain ⟨h1, h2, seg', h3, h4⟩ := hins' pr hpr'
              exact ⟨List.mem_of_mem_erase h1, h2, seg', List.mem_cons_of_mem _ h3, h4⟩
          · simp only [List.map_cons]
            rw [List.nodup_cons]
            refine ⟨?_, hsnd'⟩
            intro hmem
            obtain ⟨pr', hpr', hval⟩ := List.mem_map.mp hmem
            obtain ⟨h1, -, -⟩ := hins' pr' hpr'
            rw [hval] at h1
            exact hnd.not_mem_erase h1
          · simp only [List.map_cons]
            exact hfst'.cons₂ i
        · have hres : placeLoop2 caps ((i, seg) :: rest) free = placeLoop2 caps rest free := by
            rw [placeLoop2, if_neg hf]
            simp only [hpick]
            rw [if_neg hle]
          obtain ⟨⟨hnd', hsub'⟩, hins', hsnd', hfst'⟩ := ih free hnd
          rw [hres]
          refine ⟨⟨hnd', hsub'⟩, ?_, hsnd', ?_⟩
          · intro pr hpr
            obtain ⟨h1, h2, seg', h3, h4⟩ := hins' pr hpr
            exact ⟨h1, h2, seg', List.mem_cons_of_mem _ h3, h4⟩
          · exact hfst'.cons i
      | none =>
        have hres : placeLoop2 caps ((i, seg) :: rest) free = placeLoop2 caps rest free := by
          rw [placeLoop2, if_neg hf]
          simp only [hpick]
        obtain ⟨⟨hnd', hsub'⟩, hins', hsnd', hfst'⟩ := ih free hnd
        rw [hres]
        refine ⟨⟨hnd', hsub'⟩, ?_, hsnd', ?_⟩
        · intro pr hpr
          obtain ⟨h1, h2, seg', h3, h4⟩ := hins' pr hpr
          exact ⟨h1, h2, seg', List.mem_cons_of_mem _ h3, h4⟩
        · exact hfst'.cons i

theorem bumpKnown_length (st : PairState) (segs : List SegInput) :
    (bumpKnown st segs).length = st.segRefs.length := by
  rw [bumpKnown]
  exact npBump_length _ _ _

theorem planFirstFree_le (st : PairState) (segs : List SegInput) :
    planFirstFree st segs ≤ st.segRefs.length := by
  rw [planFirstFree]
  have := firstFree_le_length (bumpKnown st segs)
  rwa [bumpKnown_length] at this

theorem planFree0_mem {st : PairState} {segs : List SegInput} {j : Nat}
    (h : j ∈ planFree0 st segs) :
    (bumpKnown st segs)[j]? = some 0 ∧ j < planFirstFree st segs := by
  rw [planFree0, List.mem_filter] at h
  exact ⟨by simpa using h.2, List.mem_range.mp h.1⟩

theorem planFree0_nodup (st : PairState) (segs : List SegInput) :
    (planFree0 st segs).Nodup :=
  (List.nodup_range _).filter _

theorem bumpKnown_zero {st : PairState} {segs : List SegInput} {j : Nat}
    (h : (bumpKnown st segs)[j]? = some 0) : st.segRefs[j]? = some 0 := by
  rw [bumpKnown, npBump_getElem] at h
  cases hq : st.segRefs[j]? with
  | none => rw [hq] at h; simp at h
  | some r0 =>
    rw [hq] at h
    have h' : (if j ∈ npTargets st.segRefs.length
        ((hashMatches st segs).filter (fun v => 0 ≤ v)) then r0 + 1 else r0) = 0 := by
      simpa using h
    split at h'
    · omega
    · rw [h']

theorem bumpKnown_ge {st : PairState} {segs : List SegInput} {j r : Nat}
    (h : st.segRefs[j]? = some r) :
    ∃ r', (bumpKnown st segs)[j]? = some r' ∧ r ≤ r' := by
  rw [bumpKnown, npBump_getElem, h]
  split
  · exact ⟨r + 1, rfl, by omega⟩
  · exact ⟨r, rfl, le_rfl⟩

theorem zero_not_mem_planFree0 {st : PairState} {segs : List SegInput} (hInv : Inv st) :
    0 ∉ planFree0 st segs := by
  intro hmem
  obtain ⟨h0, -⟩ := planFree0_mem hmem
  obtain ⟨r0, hr0, hr0pos⟩ := hInv.ref0_pos
  obtain ⟨r', hr', hle⟩ := @bumpKnown_ge st segs 0 r0 hr0
  rw [h0] at hr'
  obtain rfl : (0 : Nat) = r' := by simpa using hr'
  omega

theorem hashMatches_length (st : PairState) (segs : List SegInput) :
    (hashMatches st segs).length = segs.length := by
  simp [hashMatches, findPositions]

theorem hashMatches_valid {st : PairState} {segs : List SegInput} {v : Int}
    (h : v ∈ hashMatches st segs) :
    v = -1 ∨ (0 ≤ v ∧ v < (st.segHashes.length : Int)) := by
  rw [hashMatches, findPositions, List.mem_map] at h
  obtain ⟨hv, -, hval⟩ := h
  subst hval
  cases hidx : st.segHashes.findIdx? (fun h => h == hv) with
  | none => left; rfl
  | some i =>
    right
    have := findIdx?_lt_length hidx
    constructor
    · show (0 : Int) ≤ (i : Int)
      exact Int.ofNat_nonneg i
    · show (i : Int) < (st.segHashes.length : Int)
      exact_mod_cast this

/-- All structural facts about the reused-slot assignments of a
successful placement plan, under the invariant. -/
theorem planInserts_facts {st : PairState} (segs : List SegInput) (hInv : Inv st) :
    (∀ pr ∈ planInserts st segs,
      st.segRefs[pr.2]? = some 0 ∧
      (bumpKnown st segs)[pr.2]? = some 0 ∧
      pr.2 ≠ 0 ∧ pr.2 < st.segRefs.length ∧
      (∃ cap, st.segCapacity[pr.2]? = some cap ∧
        ∃ seg, segs[pr.1]? = some seg ∧ seg.len ≤ cap) ∧
      (hashMatches st segs)[pr.1]? = some (-1)) ∧
    ((planInserts st segs).map Prod.snd).Nodup ∧
    ((planInserts st segs).map Prod.fst).Nodup := by
  have hnd0 := planFree0_nodup st segs
  obtain ⟨⟨hnd1, hsub1⟩, hins1, hsnd1, hfst1⟩ :=
    placeLoop1_spec st.segCapacity (unknownPairs st segs) (planFree0 st segs) hnd0
  obtain ⟨⟨hnd2, hsub2⟩, hins2, hsnd2, hfst2⟩ :=
    placeLoop2_spec st.segCapacity (sortSegDesc (planRem1 st segs))
      (planIns1Free1 st segs).2 hnd1
  have hcaplen : st.segCapacity.length = st.segRefs.length := hInv.capLen
  have hmemPerm : ∀ pr : Nat × SegInput,
      pr ∈ sortSegDesc (planRem1 st segs) → pr ∈ planRem1 st segs := by
    intro pr hpr
    rw [sortSegDesc] at hpr
    exact (insertionSort_perm _ _).mem_iff.mp hpr
  have hrem1unk : ∀ pr ∈ planRem1 st segs, pr ∈ unknownPairs st segs := by
    intro pr hpr
    rw [planRem1, List.mem_filter] at hpr
    exact hpr.1
  have hfree0Facts : ∀ j ∈ planFree0 st segs,
      st.segRefs[j]? = some 0 ∧ (bumpKnown st segs)[j]? = some 0 ∧ j ≠ 0 ∧
        j < st.segRefs.length := by
    intro j hj
    obtain ⟨hb, hlt⟩ := planFree0_mem hj
    refine ⟨bumpKnown_zero hb, hb, ?_, lt_of_lt_of_le hlt (planFirstFree_le st segs)⟩
    intro h0
    subst h0
    exact zero_not_mem_planFree0 hInv hj
  refine ⟨?_, ?_, ?_⟩
  · intro pr hpr
    rw [planInserts, List.mem_append] at hpr
    rcases hpr with hpr | hpr
    · obtain ⟨hfree, -, seg, hseg, hcap⟩ := hins1 pr hpr
      obtain ⟨hr0, hb0, hne, hlt⟩ := hfree0Facts pr.2 hfree
      refine ⟨hr0, hb0, hne, hlt, ⟨seg.len, hcap, seg, (unknownPairs_mem hseg).1, le_rfl⟩,
        (unknownPairs_mem hseg).2⟩
    · rw [planIns2] at hpr
      obtain ⟨hfree, -, seg, hseg, hcaple⟩ := hins2 pr hpr
      have hfree0 : pr.2 ∈ planFree0 st segs := hsub1 pr.2 hfree
      obtain ⟨hr0, hb0, hne, hlt⟩ := hfree0Facts pr.2 hfree0
      obtain ⟨cap, hcapeq⟩ : ∃ cap, st.segCapacity[pr.2]? = some cap := by
        rw [List.getElem?_eq_getElem (by omega : pr.2 < st.segCapacity.length)]
        exact ⟨_, rfl⟩
      have hunkmem := hrem1unk _ (hmemPerm _ hseg)
      obtain ⟨hsegs, hunk⟩ := unknownPairs_mem hunkmem
      refine ⟨hr0, hb0, hne, hlt, ⟨cap, hcapeq, seg, hsegs, ?_⟩, hunk⟩
      rw [hcapeq] at hcaple
      simpa using hcaple
  · rw [planInserts, List.map_append]
    refine List.Nodup.append hsnd1 (by rw [planIns2]; exact hsnd2) ?_
    intro x hx1 hx2
    obtain ⟨pr1, hpr1, hval1⟩ := List.mem_map.mp hx1
    rw [planIns2] at hx2
    obtain ⟨pr2, hpr2, hval2⟩ := List.mem_map.mp hx2
    obtain ⟨-, hnotfree1, -⟩ := hins1 pr1 hpr1
    obtain ⟨hfree1, -, -⟩ := hins2 pr2 hpr2
    rw [hval1] at hnotfree1
    rw [hval2] at hfree1
    exact hnotfree1 hfree1
  · rw [planInserts, List.map_append]
    have hunkfst := unknownPairs_fst_nodup st segs
    have hrem1fst : ((planRem1 st segs).map Prod.fst).Nodup := by
      rw [planRem1]
      exact ((List.filter_sublist _).map Prod.fst).nodup hunkfst
    have hsortfst : ((sortSegDesc (planRem1 st segs)).map Prod.fst).Nodup := by
      have hperm : ((sortSegDesc (planRem1 st segs)).map Prod.fst).Perm
          ((planRem1 st segs).map Prod.fst) := by
        rw [sortSegDesc]
        exact (insertionSort_perm _ _).map Prod.fst
      exact hperm.nodup_iff.mpr hrem1fst
    refine List.Nodup.append (hfst1.nodup hunkfst) ?_ ?_
    · rw [planIns2]
      exact hfst2.nodup hsortfst
    · intro i hi1 hi2
      rw [planIns2] at hi2
      have hi2' : i ∈ (sortSegDesc (planRem1 st segs)).map Prod.fst :=
        hfst2.subset hi2
      have hi2'' : i ∈ (planRem1 st segs).map Prod.fst := by
        obtain ⟨pr, hpr, hval⟩ := List.mem_map.mp hi2'
        exact List.mem_map.mpr ⟨pr, hmemPerm pr hpr, hval⟩
      obtain ⟨pr, hpr, hval⟩ := List.mem_map.mp hi2''
      rw [planRem1, List.mem_filter] at hpr
      have hcond := hpr.2
      rw [Bool.not_eq_true'] at hcond
      rw [hval] at hcond
      have : i ∈ ((planIns1Free1 st segs).1.map Prod.fst) := hi1
      rw [← List.elem_iff] at this
      rw [List.contains] at hcond
      rw [this] at hcond
      exact Bool.true_eq_false.mp hcond

theorem strLookup_isSome {β : Type} {l : List (String × β)} {a : String}
    (h : a ∈ l.map Prod.fst) : (l.lookup a).isSome := by
  induction l with
  | nil => simp at h
  | cons x xs ih =>
    obtain ⟨k, v⟩ := x
    rw [List.lookup]
    cases hak : a == k with
    | true => rfl
    | false =>
      apply ih
      simp only [List.map_cons, List.mem_cons] at h
      rcases h with h | h
      · simp at hak
        exact absurd h hak
      · exact h

theorem setProg_of_lookup_none (ps : List (String × List Int)) (name : String)
    (mem : List Int) (h : ps.lookup name = none) :
    setProg ps name mem = ps ++ [(name, mem)] := by
  rw [setProg, h]
  rfl

/-- The executed-insert filter `to_insert > 0` keeps every planned
reused-slot assignment, because no plan ever assigns the reserved
slot 0. -/
theorem insertsRun_eq {st : PairState} (segs : List SegInput) (hInv : Inv st) :
    (planInserts st segs).filter (fun p => 0 < p.2) = planInserts st segs := by
  obtain ⟨hfacts, -, -⟩ := planInserts_facts segs hInv
  refine List.filter_eq_self.mpr ?_
  intro pr hpr
  obtain ⟨-, -, hne, -⟩ := hfacts pr hpr
  simp only [decide_eq_true_eq]
  omega

/-- Every hash-unmatched input index is covered by the reused-slot
assignments or by the append remainder. -/
theorem plan_covers (st : PairState) (segs : List SegInput) (i : Nat)
    (hmi : (hashMatches st segs)[i]? = some (-1)) :
    i ∈ (planInserts st segs).map Prod.fst ∨
    i ∈ (planAmends st segs).map Prod.fst := by
  have hi : i < segs.length := by
    have := (List.getElem?_eq_some.mp hmi).1
    rwa [hashMatches_length] at this
  have hseg : segs[i]? = some (segs.get ⟨i, hi⟩) := by
    rw [List.getElem?_eq_getElem hi]
    rfl
  have hunk : (i, segs.get ⟨i, hi⟩) ∈ unknownPairs st segs := by
    rw [unknownPairs, List.mem_filter]
    refine ⟨List.mem_enum_iff_getElem?.mpr hseg, by simp [hmi]⟩
  by_cases h1 : i ∈ ((planIns1Free1 st segs).1.map Prod.fst)
  · left
    rw [planInserts, List.map_append]
    exact List.mem_append_left _ h1
  · have hrem1 : (i, segs.get ⟨i, hi⟩) ∈ planRem1 st segs := by
      rw [planRem1, List.mem_filter]
      refine ⟨hunk, ?_⟩
      rw [Bool.not_eq_true']
      rw [List.contains]
      rw [Bool.eq_false_iff]
      intro hh
      exact h1 (List.elem_iff.mp hh)
    by_cases h2 : i ∈ (planIns2 st segs).map Prod.fst
    · left
      rw [planInserts, List.map_append]
      exact List.mem_append_right _ h2
    · right
      refine List.mem_map.mpr ⟨(i, segs.get ⟨i, hi⟩), ?_, rfl⟩
      rw [planAmends, List.mem_filter]
      refine ⟨hrem1, ?_⟩
      rw [Bool.not_eq_true']
      rw [List.contains]
      rw [Bool.eq_false_iff]
      intro hh
      exact h2 (List.elem_iff.mp hh)

theorem finalW2S_getElem (w2s : List Int) (ins ap : List (Nat × Nat)) (i : Nat) :
    (finalW2S w2s ins ap)[i]? = Option.map (fun v =>
      match ins.lookup i with
      | some s => (s : Int)
      | none =>
        match ap.lookup i with
        | some s => (s : Int)
        | none => v) w2s[i]? := by
  rw [finalW2S]
  rw [List.getElem?_mapIdx]

/-- Every entry of the final waveform-to-segment array comes from an
executed insert, from an append assignment, or untouched from the
hash-match vector. -/
theorem finalW2S_mem {w2s : List Int} {ins ap : List (Nat × Nat)} {v : Int}
    (h : v ∈ finalW2S w2s ins ap) :
    (∃ pr ∈ ins, v = (pr.2 : Int)) ∨ (∃ pr ∈ ap, v = (pr.2 : Int)) ∨
    ∃ i, w2s[i]? = some v ∧ ins.lookup i = none ∧ ap.lookup i = none := by
  rw [List.mem_iff_getElem?] at h
  obtain ⟨i, hi⟩ := h
  rw [finalW2S_getElem] at hi
  cases hw : w2s[i]? with
  | none => rw [hw] at hi; simp at hi
  | some w =>
    rw [hw] at hi
    have hv : (match ins.lookup i with
      | some s => (s : Int)
      | none =>
        match ap.lookup i with
        | some s => (s : Int)
        | none => w) = v := by simpa using hi
    cases hl1 : ins.lookup i with
    | some s =>
      rw [hl1] at hv
      exact Or.inl ⟨(i, s), natLookup_mem hl1, hv.symm⟩
    | none =>
      rw [hl1] at hv
      cases hl2 : ap.lookup i with
      | some s =>
        rw [hl2] at hv
        exact Or.inr (Or.inl ⟨(i, s), natLookup_mem hl2, hv.symm⟩)
      | none =>
        rw [hl2] at hv
        subst hv
        exact Or.inr (Or.inr ⟨i, hw, hl1, hl2⟩)

/-- `_upload_segment` over a list of assignments whose slots are free
(reference count zero), large enough and pairwise distinct: no
`ValueError` is raised, the capacities and registry are untouched, the
assigned slots get length, hash and reference count 1, and every other
slot keeps its values. -/
theorem applyInserts_ok (segs : List SegInput) :
    ∀ (l : List (Nat × Nat)) (st : PairState),
    (∀ pr ∈ l, st.segRefs[pr.2]? = some 0 ∧
      ∃ cap, st.segCapacity[pr.2]? = some cap ∧
        ∃ seg, segs[pr.1]? = some seg ∧ seg.len ≤ cap) →
    ((l.map Prod.snd).Nodup) →
    (applyInserts segs l st).2 = none ∧
    (applyInserts segs l st).1.segCapacity = st.segCapacity ∧
    (applyInserts segs l st).1.segLengths.length = st.segLengths.length ∧
    (applyInserts segs l st).1.segHashes.length = st.segHashes.length ∧
    (applyInserts segs l st).1.segRefs.length = st.segRefs.length ∧
    (applyInserts segs l st).1.knownPrograms = st.knownPrograms ∧
    (applyInserts segs l st).1.currentProgram = st.currentProgram ∧
    (applyInserts segs l st).1.totalCapacity = st.totalCapacity ∧
    (∀ j ∈ l.map Prod.snd, (applyInserts segs l st).1.segRefs[j]? = some 1) ∧
    (∀ j, j ∉ l.map Prod.snd →
      (applyInserts segs l st).1.segRefs[j]? = st.segRefs[j]? ∧
      (applyInserts segs l st).1.segLengths[j]? = st.segLengths[j]? ∧
      (applyInserts segs l st).1.segHashes[j]? = st.segHashes[j]?) := by
  intro l
  induction l with
  | nil =>
    intro st hpre hnd
    rw [applyInserts]
    exact ⟨rfl, rfl, rfl, rfl, rfl, rfl, rfl, rfl, by simp,
      fun j hj => ⟨rfl, rfl, rfl⟩⟩
  | cons p rest ih =>
    obtain ⟨i, slot⟩ := p
    intro st hpre hnd
    obtain ⟨href, cap, hcap, seg, hseg, hle⟩ := hpre (i, slot) (List.mem_cons_self _ _)
    have hslotlen : slot < st.segRefs.length := (List.getElem?_eq_some.mp href).1
    rw [List.map_cons] at hnd
    obtain ⟨hnotrest, hndrest⟩ := List.nodup_cons.mp hnd
    have hpre' : ∀ pr ∈ rest,
        ({ st with
            segLengths := st.segLengths.set slot seg.len,
            segRefs := st.segRefs.set slot 1,
            segHashes := st.segHashes.set slot seg.hash } : PairState).segRefs[pr.2]?
          = some 0 ∧
        ∃ c, ({ st with
            segLengths := st.segLengths.set slot seg.len,
            segRefs := st.segRefs.set slot 1,
            segHashes := st.segHashes.set slot seg.hash } : PairState).segCapacity[pr.2]?
          = some c ∧
        ∃ sg, segs[pr.1]? = some sg ∧ sg.len ≤ c := by
      intro pr hpr
      obtain ⟨h1, c, h2, sg, h3, h4⟩ := hpre pr (List.mem_cons_of_mem _ hpr)
      have hne : pr.2 ≠ slot := by
        intro he
        exact hnotrest (by rw [← he]; exact List.mem_map.mpr ⟨pr, hpr, rfl⟩)
      refine ⟨?_, c, h2, sg, h3, h4⟩
      show (st.segRefs.set slot 1)[pr.2]? = some 0
      rw [List.getElem?_set_ne hne.symm]
      exact h1
    have hok := ih { st with
        segLengths := st.segLengths.set slot seg.len,
        segRefs := st.segRefs.set slot 1,
        segHashes := st.segHashes.set slot seg.hash } hpre' hndrest
    rw [applyInserts]
    simp only [href, hcap, hseg]
    rw [if_neg (lt_irrefl 0), if_neg (Nat.not_lt.mpr hle)]
    refine ⟨hok.1, hok.2.1, hok.2.2.1.trans (by simp),
      hok.2.2.2.1.trans (by simp), hok.2.2.2.2.1.trans (by simp),
      hok.2.2.2.2.2.1, hok.2.2.2.2.2.2.1, hok.2.2.2.2.2.2.2.1, ?_, ?_⟩
    · intro j hj
      rw [List.map_cons] at hj
      rcases List.mem_cons.mp hj with rfl | hj
      · have := (hok.2.2.2.2.2.2.2.2.2 j hnotrest).1
        rw [this]
        show (st.segRefs.set j 1)[j]? = some 1
        rw [List.getElem?_set_self]
        exact hslotlen
      · exact hok.2.2.2.2.2.2.2.2.1 j hj
    · intro j hj
      rw [List.map_cons, List.mem_cons] at hj
      push_neg at hj
      obtain ⟨hjslot, hjrest⟩ := hj
      obtain ⟨u1, u2, u3⟩ := hok.2.2.2.2.2.2.2.2.2 j hjrest
      refine ⟨u1.trans ?_, u2.trans ?_, u3.trans ?_⟩
      · show (st.segRefs.set slot 1)[j]? = st.segRefs[j]?
        exact List.getElem?_set_ne hjslot.symm
      · show (st.segLengths.set slot seg.len)[j]? = st.segLengths[j]?
        exact List.getElem?_set_ne hjslot.symm
      · show (st.segHashes.set slot seg.hash)[j]? = st.segHashes[j]?
        exact List.getElem?_set_ne hjslot.symm

/-- Reduction of the commit path when the reused-slot uploads all
succeed. -/
theorem uploadCommit_fst (st1 : PairState) (name : String) (segs : List SegInput)
    (w2s : List Int) (ins : List (Nat × Nat)) (am : List (Nat × SegInput))
    (st3 : PairState)
    (hrun : ins.filter (fun p => 0 < p.2) = ins)
    (happly : applyInserts segs ins
        { st1 with segRefs := npBump st1.segRefs (w2s.filter (fun v => 0 ≤ v)) true }
      = (st3, none)) :
    (uploadCommit st1 name segs ⟨w2s, ins, am⟩).1 =
      { applyAmends st3 (am.map Prod.snd) with
          knownPrograms := setProg st3.knownPrograms name
            (finalW2S w2s ins
              ((am.map Prod.fst).zip
                ((List.range (am.map Prod.snd).length).map
                  (fun k => st3.segCapacity.length + k)))) } := by
  simp only [uploadCommit]
  rw [hrun, happly]
  rfl

/-- The commit path of a successful `upload` of an unregistered name
preserves the invariant. -/
theorem inv_uploadCommit {st1 : PairState} (hInv : Inv st1) (name : String)
    (segs : List SegInput)
    (hname : st1.knownPrograms.lookup name = none) :
    Inv (uploadCommit st1 name segs
      ⟨hashMatches st1 segs, planInserts st1 segs, planAmends st1 segs⟩).1 := by
  obtain ⟨hfacts, hsnd, hfst⟩ := planInserts_facts segs hInv
  have hrun := insertsRun_eq segs hInv
  have hn1 : 0 < st1.segRefs.length := List.length_pos.mpr hInv.refsNonempty
  have hpre : ∀ pr ∈ planInserts st1 segs,
      ({ st1 with segRefs := bumpKnown st1 segs } : PairState).segRefs[pr.2]? = some 0 ∧
      ∃ c, ({ st1 with segRefs := bumpKnown st1 segs } : PairState).segCapacity[pr.2]?
        = some c ∧
      ∃ sg, segs[pr.1]? = some sg ∧ sg.len ≤ c := by
    intro pr hpr
    obtain ⟨-, hb0, -, -, ⟨c, hc, sg, hsg, hle⟩, -⟩ := hfacts pr hpr
    exact ⟨hb0, c, hc, sg, hsg, hle⟩
  have hok := applyInserts_ok segs (planInserts st1 segs)
    { st1 with segRefs := bumpKnown st1 segs } hpre hsnd
  cases happly : applyInserts segs (planInserts st1 segs)
      { st1 with segRefs := bumpKnown st1 segs } with
  | mk st3 res =>
  rw [happly] at hok
  simp only at hok
  obtain ⟨hres, hcap3, hlenlen3, hhashlen3, hreflen3, hkp3, hcur3, htot3, hmem3, hun3⟩ := hok
  subst hres
  rw [uploadCommit_fst st1 name segs (hashMatches st1 segs) (planInserts st1 segs)
    (planAmends st1 segs) st3 hrun happly]
  have hcap3len : st3.segCapacity.length = st1.segRefs.length := by
    rw [hcap3]; exact hInv.capLen
  have hbklen : (bumpKnown st1 segs).length = st1.segRefs.length := by
    rw [bumpKnown]
    exact npBump_length _ _ _
  have hreflen3' : st3.segRefs.length = st1.segRefs.length :=
    hreflen3.trans hbklen
  have hlen3' : st3.segLengths.length = st1.segRefs.length :=
    hlenlen3.trans hInv.lenLen
  have hhash3' : st3.segHashes.length = st1.segRefs.length :=
    hhashlen3.trans hInv.hashLen
  have h0notins : (0 : Nat) ∉ (planInserts st1 segs).map Prod.snd := by
    intro h
    obtain ⟨pr, hpr, hv⟩ := List.mem_map.mp h
    exact ((hfacts pr hpr).2.2.1) hv
  obtain ⟨hrefs0un, hlen0un, hhash0un⟩ := hun3 0 h0notins
  have hhash0 : st3.segHashes[0]? = some idleHash := by
    rw [hhash0un]; exact hInv.hash0
  have hlen0 : st3.segLengths[0]? = some 192 := by
    rw [hlen0un]; exact hInv.len0
  have hcap0 : st3.segCapacity[0]? = some 192 := by
    rw [hcap3]; exact hInv.cap0
  have hapfst : ((((planAmends st1 segs).map Prod.fst).zip
      ((List.range ((planAmends st1 segs).map Prod.snd).length).map
        (fun k => st3.segCapacity.length + k))).map Prod.fst)
      = (planAmends st1 segs).map Prod.fst := by
    apply List.map_fst_zip
    simp
  have hapsnd : ∀ pr ∈ ((planAmends st1 segs).map Prod.fst).zip
      ((List.range ((planAmends st1 segs).map Prod.snd).length).map
        (fun k => st3.segCapacity.length + k)),
      ∃ k, k < (planAmends st1 segs).length ∧ pr.2 = st3.segCapacity.length + k := by
    intro pr hpr
    have h2 : pr.2 ∈ (((planAmends st1 segs).map Prod.fst).zip
        ((List.range ((planAmends st1 segs).map Prod.snd).length).map
          (fun k => st3.segCapacity.length + k))).map Prod.snd :=
      List.mem_map.mpr ⟨pr, hpr, rfl⟩
    rw [List.map_snd_zip _ _ (by simp)] at h2
    obtain ⟨k, hk, hv⟩ := List.mem_map.mp h2
    rw [List.mem_range] at hk
    exact ⟨k, by simpa using hk, hv.symm⟩
  have hvalid : ∀ s ∈ (hashMatches st1 segs).filter (fun v => 0 ≤ v),
      0 ≤ s ∧ s < (st1.segRefs.length : Int) := by
    intro s hs
    rw [List.mem_filter] at hs
    obtain ⟨hsm, hs0⟩ := hs
    have hs0' : (0 : Int) ≤ s := by simpa using hs0
    rcases hashMatches_valid hsm with rfl | ⟨h1, h2⟩
    · omega
    · refine ⟨h1, ?_⟩
      rw [hInv.hashLen] at h2
      exact h2
  have husesHigh : ∀ j, st1.segRefs.length ≤ j → progUses st1.knownPrograms j = 0 := by
    intro j hj
    rw [progUses, List.length_eq_zero, List.filter_eq_nil_iff]
    intro p hp
    simp only [decide_eq_true_eq]
    intro hmem
    have := (hInv.slotsValid p hp _ hmem).2
    omega
  have hslotfacts : ∀ j ∈ (planInserts st1 segs).map Prod.snd,
      st1.segRefs[j]? = some 0 ∧ j ≠ 0 ∧ j < st1.segRefs.length := by
    intro j hj
    obtain ⟨pr, hpr, hv⟩ := List.mem_map.mp hj
    obtain ⟨hr0, -, hne, hlt, -, -⟩ := hfacts pr hpr
    exact ⟨hv ▸ hr0, hv ▸ hne, hv ▸ hlt⟩
  have hnomem : ∀ j : Nat, j < st1.segRefs.length →
      j ∉ (planInserts st1 segs).map Prod.snd →
      j ∉ npTargets st1.segRefs.length ((hashMatches st1 segs).filter (fun v => 0 ≤ v)) →
      ¬ ((j : Int) ∈ finalW2S (hashMatches st1 segs) (planInserts st1 segs)
        (((planAmends st1 segs).map Prod.fst).zip
          ((List.range ((planAmends st1 segs).map Prod.snd).length).map
            (fun k => st3.segCapacity.length + k)))) := by
    intro j hjlt hjins hjtgt hjmem
    rcases finalW2S_mem hjmem with ⟨pr, hpr, hval⟩ | ⟨pr, hpr, hval⟩ | ⟨i, hwi, hl1, hl2⟩
    · have hpe : pr.2 = j := by exact_mod_cast hval.symm
      exact hjins (List.mem_map.mpr ⟨pr, hpr, hpe⟩)
    · obtain ⟨k, hk, hv2⟩ := hapsnd pr hpr
      have hje : (j : Int) = ((st3.segCapacity.length + k : Nat) : Int) := by
        rw [hval, hv2]
      have hj' : j = st3.segCapacity.length + k := by exact_mod_cast hje
      rw [hcap3len] at hj'
      omega
    · have hjmemw : (j : Int) ∈ (hashMatches st1 segs).filter (fun v => 0 ≤ v) :=
        List.mem_filter.mpr ⟨List.getElem?_mem hwi, by simp⟩
      exact hjtgt ((npTargets_mem_iff hvalid j).mpr hjmemw)
  refine ⟨?_, ?_, ?_, ?_, ?_, ?_, ?_, ?_⟩
  · simp only [applyAmends, List.length_append, List.length_map]
    omega
  · simp only [applyAmends, List.length_append, List.length_map]
    omega
  · simp only [applyAmends, List.length_append, List.length_map]
    omega
  · simp only [applyAmends]
    rw [List.getElem?_append, if_pos (by rw [hhash3']; exact hn1)]
    exact hhash0
  · simp only [applyAmends]
    rw [List.getElem?_append, if_pos (by rw [hcap3len]; exact hn1)]
    exact hcap0
  · simp only [applyAmends]
    rw [List.getElem?_append, if_pos (by rw [hlen3']; exact hn1)]
    exact hlen0
  · simp only [applyAmends]
    intro p hp s hs
    rw [hkp3, setProg_of_lookup_none _ _ _ hname] at hp
    rcases List.mem_append.mp hp with hp | hp
    · obtain ⟨hs1, hs2⟩ := hInv.slotsValid p hp s hs
      refine ⟨hs1, ?_⟩
      simp only [List.length_append, List.length_map]
      omega
    · obtain rfl := List.mem_singleton.mp hp
      rcases finalW2S_mem hs with ⟨pr, hpr, rfl⟩ | ⟨pr, hpr, rfl⟩ | ⟨i, hwi, hl1, hl2⟩
      · obtain ⟨-, -, -, hlt, -, -⟩ := hfacts pr hpr
        refine ⟨Int.ofNat_nonneg _, ?_⟩
        simp only [List.length_append, List.length_map]
        omega
      · obtain ⟨k, hk, hv2⟩ := hapsnd pr hpr
        refine ⟨Int.ofNat_nonneg _, ?_⟩
        simp only [List.length_append, List.length_map]
        rw [hv2]
        omega
      · rcases hashMatches_valid (List.getElem?_mem hwi) with rfl | ⟨h1, h2⟩
        · exfalso
          rcases plan_covers st1 segs i hwi with hc | hc
          · have hcs := natLookup_isSome hc
            rw [hl1] at hcs
            simp at hcs
          · have hc' : i ∈ ((((planAmends st1 segs).map Prod.fst).zip
                ((List.range ((planAmends st1 segs).map Prod.snd).length).map
                  (fun k => st3.segCapacity.length + k))).map Prod.fst) := by
              rw [hapfst]; exact hc
            have hcs := natLookup_isSome hc'
            rw [hl2] at hcs
            simp at hcs
        · refine ⟨h1, ?_⟩
          rw [hInv.hashLen] at h2
          simp only [List.length_append, List.length_map]
          omega
  · simp only [applyAmends]
    intro j r hjr
    rw [hkp3, setProg_of_lookup_none _ _ _ hname, progUses_append_single]
    rcases Nat.lt_or_ge j st3.segRefs.length with hlt | hge
    · rw [List.getElem?_append, if_pos hlt] at hjr
      by_cases hjins : j ∈ (planInserts st1 segs).map Prod.snd
      · rw [hmem3 j hjins] at hjr
        obtain rfl : (1 : Nat) = r := by simpa using hjr
        obtain ⟨href0, hne0, -⟩ := hslotfacts j hjins
        have huse := hInv.refCount j 0 href0
        rw [if_neg hne0] at huse ⊢
        split
        · omega
        · omega
      · rw [(hun3 j hjins).1, bumpKnown, npBump_getElem] at hjr
        have hjlt1 : j < st1.segRefs.length := by rw [← hreflen3']; exact hlt
        obtain ⟨r1, hr1⟩ : ∃ r1, st1.segRefs[j]? = some r1 := by
          rw [List.getElem?_eq_getElem hjlt1]
          exact ⟨_, rfl⟩
        rw [hr1] at hjr
        have hjr' : (if j ∈ npTargets st1.segRefs.length
            ((hashMatches st1 segs).filter (fun v => 0 ≤ v)) then r1 + 1 else r1) = r := by
          simpa using hjr
        have huse := hInv.refCount j r1 hr1
        by_cases htgt : j ∈ npTargets st1.segRefs.length
            ((hashMatches st1 segs).filter (fun v => 0 ≤ v))
        · rw [if_pos htgt] at hjr'
          rcases eq_or_ne j 0 with rfl | hj0
          · rw [if_pos rfl] at huse ⊢
            split
            · omega
            · omega
          · rw [if_neg hj0] at huse ⊢
            split
            · omega
            · omega
        · rw [if_neg htgt] at hjr'
          rw [if_neg (hnomem j hjlt1 hjins htgt)]
          rcases eq_or_ne j 0 with rfl | hj0
          · rw [if_pos rfl] at huse ⊢
            omega
          · rw [if_neg hj0] at huse ⊢
            omega
    · rw [List.getElem?_append, if_neg (by omega)] at hjr
      rw [List.getElem?_map] at hjr
      cases hsg : ((planAmends st1 segs).map Prod.snd)[j - st3.segRefs.length]? with
      | none =>
        rw [hsg] at hjr
        simp at hjr
      | some sg =>
        rw [hsg] at hjr
        obtain rfl : (1 : Nat) = r := by simpa using hjr
        have hjge1 : st1.segRefs.length ≤ j := by rw [← hreflen3']; exact hge
        rw [husesHigh j hjge1]
        rw [if_neg (by omega : j ≠ 0)]
        split
        · omega
        · omega

/-- The guarded part of `upload` preserves the invariant whenever the
uploaded name is not (or no longer) registered. -/
theorem inv_uploadTry {st1 : PairState} (hInv : Inv st1) (name : String)
    (pipeline : PipelineOutcome) (restoring : Bool)
    (hname : st1.knownPrograms.lookup name = none) :
    Inv (uploadTry st1 name pipeline restoring).1 := by
  cases pipeline with
  | compatError => exact hInv
  | pipeError =>
    show Inv (uploadFail st1 restoring .pipeErr).1
    rw [uploadFail]
    split
    · exact hInv
    · exact hInv
  | segments segs =>
    show Inv (match findPlace st1 segs with
      | .error e => uploadFail st1 restoring e
      | .ok plan => uploadCommit st1 name segs plan).1
    split
    · rw [uploadFail]
      split
      · exact hInv
      · exact hInv
    · rename_i plan heq
      rw [findPlace] at heq
      split_ifs at heq
      all_goals
        first
        | exact Except.noConfusion heq
        | (injection heq with h
           subst h
           exact inv_uploadCommit hInv name segs hname)

/-- `upload` preserves the invariant. -/
theorem inv_uploadStep {st : PairState} (hInv : Inv st) (name : String)
    (pipeline : PipelineOutcome) (force : Bool) :
    Inv (uploadStep st name pipeline force).1 := by
  have hcase : ∀ hpipe : pipeline ≠ .compatError,
      Inv (if (st.knownPrograms.lookup name).isSome then
        if force then
          match freeProgramStep st name with
          | (st1, .ok _) => uploadTry st1 name pipeline true
          | (st1, .error _) => (st1, some .keyErr)
        else (st, some .valueErr)
      else uploadTry st name pipeline false).1 := by
    intro hpipe
    cases hlk : st.knownPrograms.lookup name with
    | none =>
      simp only [Option.isSome_none]
      rw [if_neg Bool.false_ne_true]
      exact inv_uploadTry hInv name pipeline false hlk
    | some mem =>
      simp only [Option.isSome_some]
      rw [if_pos trivial]
      by_cases hf : force
      · rw [if_pos hf]
        have hfreeInv : Inv (freeProgramStep st name).1 := inv_freeProgramStep hInv name
        have hred : freeProgramStep st name = ({ st with
            knownPrograms := st.knownPrograms.filter (fun p => !(p.1 == name)),
            segRefs := npBump st.segRefs mem false,
            currentProgram := if st.currentProgram = some name then none
              else st.currentProgram }, .ok mem) := by
          rw [freeProgramStep, hlk]
        rw [hred] at hfreeInv ⊢
        have hnone : ((st.knownPrograms.filter
            (fun p => !(p.1 == name))).lookup name) = none := by
          apply strLookup_eq_none
          intro hmemf
          obtain ⟨p, hp, hp1⟩ := List.mem_map.mp hmemf
          rw [List.mem_filter] at hp
          have hq := hp.2
          rw [hp1] at hq
          simp at hq
        exact inv_uploadTry hfreeInv name pipeline true hnone
      · rw [if_neg hf]
        exact hInv
  cases pipeline with
  | compatError => exact hInv
  | pipeError => exact hcase (by intro h; exact PipelineOutcome.noConfusion h)
  | segments segs => exact hcase (by intro h; exact PipelineOutcome.noConfusion h)

/-- Every operation of the alphabet preserves the invariant. -/
theorem inv_applyOp {st : PairState} (hInv : Inv st) (op : PairOp) :
    Inv (applyOp st op) := by
  cases op with
  | upload n p f => exact inv_uploadStep hInv n p f
  | freeProgram n => exact inv_freeProgramStep hInv n
  | remove n => exact inv_removeStep hInv n
  | cleanup => exact inv_cleanupStep hInv
  | changeArmed n => exact inv_changeArmedStep hInv n

theorem foldl_applyOp_inv : ∀ (ops : List PairOp) (st : PairState), Inv st →
    Inv (ops.foldl applyOp st) := by
  intro ops
  induction ops with
  | nil => intro st h; exact h
  | cons op rest ih =>
    intro st h
    exact ih (applyOp st op) (inv_applyOp h op)

/-- Every state reachable from `clear()` satisfies the invariant. -/
theorem runOps_inv (total : Nat) (ops : List PairOp) : Inv (runOps total ops) :=
  foldl_applyOp_inv ops (clearState total) (inv_clearState total)

/-- Claim C10: in every allocator state reachable from `clear()` by any
sequence of `upload`, `free_program`, `remove`, `cleanup` and
`change_armed_program` operations, the slot table is non-empty and
slot 0 still holds the idle segment — the idle hash, capacity 192 and
length 192 — with a reference count of at least 1: `cleanup` never
truncates slot 0 away, `_upload_segment` (which requires a zero
reference count) never overwrites it, and `free_program` never drives
its count to zero. -/
theorem slot_zero_idle_invariant (total : Nat) (ops : List PairOp) :
    (runOps total ops).segRefs ≠ [] ∧
    (runOps total ops).segHashes[0]? = some idleHash ∧
    (runOps total ops).segCapacity[0]? = some 192 ∧
    (runOps total ops).segLengths[0]? = some 192 ∧
    ∃ r, (runOps total ops).segRefs[0]? = some r ∧ 1 ≤ r := by
  have hInv : Inv (runOps total ops) := runOps_inv total ops
  exact ⟨hInv.refsNonempty, hInv.hash0, hInv.cap0, hInv.len0, hInv.ref0_pos⟩

/-! ## Claim C5: flatten_and_balance -/

/-- `Loop.flatten_and_balance` (`program.py` lines 177-205), fuelled.
The Python method mutates `self` through a `while i < len(self)` loop
over the child list; `fabGo fuel d i (mk r w cs)` is that loop with the
remaining fuel made explicit (`none` = the modelled run did not finish
within `fuel` steps).  The branches, in source order: a child shallower
than `depth - 1` is encapsulated; an unbalanced child is recursed into
with `depth - 1` (the recursive call is the same loop started at
index 0); a balanced child of depth exactly `depth - 1` is passed
(`i += 1`); a single-child-of-single-child chain is merged (repetition
counts multiply, the grandchild's children and waveform are adopted);
any other child is unrolled into its parent.  `depth` is a Python `int`
and may go negative through the `depth - 1` recursion, so it is
embedded as `Int`. -/
def fabGo : Nat → Int → Nat → Loop → Option Loop
  | 0, _, _, _ => none
  | fuel+1, d, i, .mk r w cs =>
    if h : i < cs.length then
      if (cs[i].depthN : Int) < d - 1 then
        fabGo fuel d i (.mk r w (cs.set i cs[i].encapsulateF))
      else if cs[i].isBalanced = false then
        match fabGo fuel (d - 1) 0 cs[i] with
        | some c2 => fabGo fuel d i (.mk r w (cs.set i c2))
        | none => none
      else if (cs[i].depthN : Int) = d - 1 then
        fabGo fuel d (i + 1) (.mk r w cs)
      else
        match cs[i].children with
        | [c0] =>
          if c0.children.length = 1 then
            fabGo fuel d i (.mk r w
              (cs.set i (.mk (cs[i].rep * c0.rep) c0.wf c0.children)))
          else
            fabGo fuel d i ((Loop.mk r w cs).unrollAt i)
        | _ =>
          fabGo fuel d i ((Loop.mk r w cs).unrollAt i)
    else some (.mk r w cs)

/-- `flatten_and_balance(depth)` is its while loop started at `i = 0`. -/
def fab (fuel : Nat) (d : Int) (t : Loop) : Option Loop :=
  fabGo fuel d 0 t

theorem allPosList_iff (cs : List Loop) :
    Loop.allPosList cs = true ↔ ∀ c ∈ cs, c.allPos = true := by
  induction cs with
  | nil => simp [Loop.allPosList]
  | cons c cs ih =>
    rw [Loop.allPosList]
    simp only [Bool.and_eq_true, ih, List.mem_cons]
    constructor
    · rintro ⟨h1, h2⟩ c' (rfl | hc')
      · exact h1
      · exact h2 c' hc'
    · intro h
      exact ⟨h c (Or.inl rfl), fun c' hc' => h c' (Or.inr hc')⟩

theorem allPos_iff (c : Loop) :
    c.allPos = true ↔ 1 ≤ c.rep ∧ Loop.allPosList c.children = true := by
  cases c with
  | mk r w cs =>
    rw [Loop.allPos]
    simp [Loop.rep, Loop.children]

theorem allPosList_set (cs : List Loop) (i : Nat) (x : Loop)
    (h : Loop.allPosList cs = true) (hx : x.allPos = true) :
    Loop.allPosList (cs.set i x) = true := by
  rw [allPosList_iff] at h ⊢
  intro c hc
  rcases List.mem_or_eq_of_mem_set hc with hc | rfl
  · exact h c hc
  · exact hx

theorem allPos_encapsulateF (c : Loop) (h : c.allPos = true) :
    c.encapsulateF.allPos = true := by
  cases c with
  | mk r w cs =>
    rw [Loop.encapsulateF, Loop.allPos, Loop.allPosList, Loop.allPosList]
    simp [h]

theorem depthN_of_children_nil (c : Loop) (h : c.children = []) :
    c.depthN = 0 := by
  cases c with
  | mk r w cs =>
    rw [Loop.children] at h
    subst h
    rfl

theorem balAll_mem (d : Nat) (cs : List Loop) (h : Loop.balAll d cs = true) :
    ∀ c ∈ cs, Loop.depthN c = d ∧ Loop.isBalanced c = true := by
  induction cs with
  | nil => simp
  | cons c0 cs ih =>
    rw [Loop.balAll] at h
    simp only [Bool.and_eq_true, beq_iff_eq] at h
    intro c hc
    rcases List.mem_cons.mp hc with rfl | hc
    · exact ⟨h.1.1, h.1.2⟩
    · exact ih h.2 c hc

theorem depthMax_eq (d : Nat) (c0 : Loop) (cs : List Loop)
    (h : ∀ c ∈ c0 :: cs, Loop.depthN c = d) : Loop.depthMax (c0 :: cs) = d := by
  induction cs generalizing c0 with
  | nil =>
    rw [Loop.depthMax, Loop.depthMax, h c0 (List.mem_cons_self _ _)]
    omega
  | cons c1 cs ih =>
    rw [Loop.depthMax, h c0 (List.mem_cons_self _ _),
      ih c1 (fun c hc => h c (List.mem_cons_of_mem _ hc))]
    exact Nat.max_self d

theorem leavesAtList_of_forall (cs : List Loop) (k : Nat)
    (h : ∀ c ∈ cs, c.leavesAt k = true) : Loop.leavesAtList cs k = true := by
  induction cs with
  | nil => rfl
  | cons c cs ih =>
    rw [Loop.leavesAtList]
    simp only [Bool.and_eq_true]
    exact ⟨h c (List.mem_cons_self _ _),
      ih (fun c' hc' => h c' (List.mem_cons_of_mem _ hc'))⟩

/-- A balanced node of depth `k` has all its leaves at depth `k`. -/
theorem bal_leavesAt : ∀ (k : Nat) (c : Loop), c.isBalanced = true →
    c.depthN = k → c.leavesAt k = true := by
  intro k
  induction k with
  | zero =>
    intro c hbal hd
    cases c with
    | mk r w cs =>
      cases cs with
      | nil => rfl
      | cons c0 cs' =>
        rw [Loop.depthN] at hd
        omega
  | succ k ih =>
    intro c hbal hd
    cases c with
    | mk r w cs =>
      cases cs with
      | nil =>
        rw [Loop.depthN] at hd
        exact absurd hd (by omega)
      | cons c0 cs' =>
        rw [Loop.isBalanced] at hbal
        have hmem := balAll_mem _ _ hbal
        have hmax : Loop.depthMax (c0 :: cs') = c0.depthN :=
          depthMax_eq _ _ _ (fun c hc => (hmem c hc).1)
        rw [Loop.depthN, hmax] at hd
        have hd0 : c0.depthN = k := by omega
        rw [Loop.leavesAt]
        apply leavesAtList_of_forall
        intro c' hc'
        exact ih c' (hmem c' hc').2 ((hmem c' hc').1.trans hd0)

theorem unrollAt_of_lt (r : Nat) (w : Option Wf) (cs : List Loop) (i : Nat)
    (h : i < cs.length) :
    (Loop.mk r w cs).unrollAt i = .mk r w (cs.take i
      ++ List.flatten (List.replicate (cs[i]).rep (cs[i]).children)
      ++ cs.drop (i+1)) := by
  simp only [Loop.unrollAt, List.getElem?_eq_getElem h]

/-- The loop invariant of `flatten_and_balance`: children left of the
cursor are balanced with depth exactly `d - 1`; on normal exit every
child is, the repetition-count invariant is preserved, and (for a
positive target depth) a non-empty child list stays non-empty. -/
theorem fabGo_spec : ∀ (fuel : Nat) (d : Int) (i : Nat) (r : Nat) (w : Option Wf)
    (cs : List Loop) (t' : Loop),
    fabGo fuel d i (.mk r w cs) = some t' →
    Loop.allPosList cs = true →
    (∀ k, k < i → ∀ c, cs[k]? = some c →
      c.isBalanced = true ∧ (c.depthN : Int) = d - 1) →
    ∃ cs', t' = .mk r w cs' ∧ Loop.allPosList cs' = true ∧
      (∀ c ∈ cs', c.isBalanced = true ∧ (c.depthN : Int) = d - 1) ∧
      (1 ≤ d → cs ≠ [] → cs' ≠ []) := by
  intro fuel
  induction fuel with
  | zero =>
    intro d i r w cs t' h
    simp [fabGo] at h
  | succ fuel ih =>
    intro d i r w cs t' h hpos hinv
    rw [fabGo] at h
    by_cases hlen : i < cs.length
    · rw [dif_pos hlen] at h
      have hcmem : cs[i] ∈ cs := List.getElem_mem hlen
      have hcpos : (cs[i]).allPos = true := (allPosList_iff cs).mp hpos _ hcmem
      have hset : ∀ x : Loop, x.allPos = true →
          fabGo fuel d i (.mk r w (cs.set i x)) = some t' →
          ∃ cs', t' = .mk r w cs' ∧ Loop.allPosList cs' = true ∧
            (∀ c ∈ cs', c.isBalanced = true ∧ (c.depthN : Int) = d - 1) ∧
            (1 ≤ d → cs ≠ [] → cs' ≠ []) := by
        intro x hx hcall
        have hinv' : ∀ k, k < i → ∀ c, (cs.set i x)[k]? = some c →
            c.isBalanced = true ∧ (c.depthN : Int) = d - 1 := by
          intro k hk c hc
          rw [List.getElem?_set_ne (by omega : i ≠ k)] at hc
          exact hinv k hk c hc
        obtain ⟨cs', h1, h2, h3, h4⟩ := ih d i r w (cs.set i x) t' hcall
          (allPosList_set cs i x hpos hx) hinv'
        refine ⟨cs', h1, h2, h3, fun hd hne => h4 hd ?_⟩
        intro hnil
        rw [← List.length_eq_zero, List.length_set] at hnil
        exact hne (List.length_eq_zero.mp hnil)
      have hunroll : fabGo fuel d i ((Loop.mk r w cs).unrollAt i) = some t' →
          (1 ≤ d → (cs[i]).children ≠ []) →
          ∃ cs', t' = .mk r w cs' ∧ Loop.allPosList cs' = true ∧
            (∀ c ∈ cs', c.isBalanced = true ∧ (c.depthN : Int) = d - 1) ∧
            (1 ≤ d → cs ≠ [] → cs' ≠ []) := by
        intro hcall hch
        rw [unrollAt_of_lt r w cs i hlen] at hcall
        have hposch : Loop.allPosList (cs[i]).children = true :=
          ((allPos_iff _).mp hcpos).2
        have hpos2 : Loop.allPosList (cs.take i
            ++ List.flatten (List.replicate (cs[i]).rep (cs[i]).children)
            ++ cs.drop (i+1)) = true := by
          rw [allPosList_iff]
          intro c hc
          rcases List.mem_append.mp hc with hc | hc
          · rcases List.mem_append.mp hc with hc | hc
            · exact (allPosList_iff cs).mp hpos c (List.take_subset _ _ hc)
            · obtain ⟨l, hl, hcl⟩ := List.mem_flatten.mp hc
              obtain rfl := List.eq_of_mem_replicate hl
              exact (allPosList_iff _).mp hposch c hcl
          · exact (allPosList_iff cs).mp hpos c (List.drop_subset _ _ hc)
        have hinv2 : ∀ k, k < i → ∀ c, (cs.take i
            ++ List.flatten (List.replicate (cs[i]).rep (cs[i]).children)
            ++ cs.drop (i+1))[k]? = some c →
            c.isBalanced = true ∧ (c.depthN : Int) = d - 1 := by
          intro k hk c hc
          apply hinv k hk c
          have hlt1 : k < (cs.take i
              ++ List.flatten (List.replicate (cs[i]).rep (cs[i]).children)).length := by
            rw [List.length_append, List.length_take]
            omega
          rw [List.getElem?_append, if_pos hlt1, List.getElem?_append,
            if_pos (by rw [List.length_take]; omega),
            List.getElem?_take_of_lt hk] at hc
          exact hc
        obtain ⟨cs', h1, h2, h3, h4⟩ := ih d i r w _ t' hcall hpos2 hinv2
        refine ⟨cs', h1, h2, h3, fun hd hne => h4 hd ?_⟩
        have hchne := hch hd
        obtain ⟨c0, ch', hch0⟩ : ∃ c0 ch', (cs[i]).children = c0 :: ch' := by
          cases hcc : (cs[i]).children with
          | nil => exact absurd hcc hchne
          | cons c0 ch' => exact ⟨c0, ch', rfl⟩
        have hrep : 1 ≤ (cs[i]).rep := ((allPos_iff _).mp hcpos).1
        have hfl := flatten_replicate_ne_nil (cs[i]).rep hrep c0 ch'
        rw [← hch0] at hfl
        simp [hfl]
      by_cases h1 : ((cs[i].depthN : Int) < d - 1)
      · rw [if_pos h1] at h
        exact hset _ (allPos_encapsulateF _ hcpos) h
      · rw [if_neg h1] at h
        by_cases h2 : (cs[i]).isBalanced = false
        · rw [if_pos h2] at h
          cases hrec : fabGo fuel (d - 1) 0 cs[i] with
          | none =>
            rw [hrec] at h
            simp at h
          | some c2 =>
            rw [hrec] at h
            have hc2pos : c2.allPos = true := by
              cases hcieq : cs[i] with
              | mk rc wc csc =>
                rw [hcieq] at hrec
                have hcpos' := hcpos
                rw [hcieq, allPos_iff] at hcpos'
                obtain ⟨cs2, hceq, hcpos2, -, -⟩ := ih (d-1) 0 rc wc csc c2 hrec
                  hcpos'.2 (fun k hk c hc => absurd hk (by omega))
                rw [hceq, allPos_iff]
                exact ⟨hcpos'.1, hcpos2⟩
            exact hset c2 hc2pos h
        · rw [if_neg h2] at h
          have hbal : (cs[i]).isBalanced = true := by
            revert h2
            cases (cs[i]).isBalanced <;> simp
          by_cases h3 : ((cs[i].depthN : Int) = d - 1)
          · rw [if_pos h3] at h
            have hinv3 : ∀ k, k < i + 1 → ∀ c, cs[k]? = some c →
                c.isBalanced = true ∧ (c.depthN : Int) = d - 1 := by
              intro k hk c hc
              rcases Nat.lt_or_ge k i with hki | hki
              · exact hinv k hki c hc
              · have hkeq : k = i := by omega
                subst hkeq
                rw [List.getElem?_eq_getElem hlen] at hc
                have hce : cs[k] = c := by simpa using hc
                exact ⟨hce ▸ hbal, hce ▸ h3⟩
            exact ih d (i+1) r w cs t' h hpos hinv3
          · rw [if_neg h3] at h
            have hchne : 1 ≤ d → (cs[i]).children ≠ [] := by
              intro hd hnil
              have h0 := depthN_of_children_nil _ hnil
              rw [h0] at h1 h3
              omega
            cases hch : (cs[i]).children with
            | nil =>
              simp only [hch] at h
              exact hunroll h hchne
            | cons c0 rest =>
              cases rest with
              | nil =>
                simp only [hch] at h
                by_cases h4 : c0.children.length = 1
                · rw [if_pos h4] at h
                  have hc0pos : c0.allPos = true := by
                    have hx := ((allPos_iff _).mp hcpos).2
                    rw [hch] at hx
                    exact (allPosList_iff _).mp hx c0 (List.mem_cons_self _ _)
                  refine hset _ ?_ h
                  rw [allPos_iff]
                  constructor
                  · have ha := ((allPos_iff _).mp hcpos).1
                    have hb := ((allPos_iff _).mp hc0pos).1
                    show 1 ≤ (cs[i]).rep * c0.rep
                    have := Nat.mul_pos (show 0 < (cs[i]).rep by omega)
                      (show 0 < c0.rep by omega)
                    omega
                  · exact ((allPos_iff _).mp hc0pos).2
                · rw [if_neg h4] at h
                  exact hunroll h hchne
              | cons c1 rest2 =>
                simp only [hch] at h
                exact hunroll h hchne
    · rw [dif_neg hlen] at h
      obtain rfl : Loop.mk r w cs = t' := Option.some.inj h
      refine ⟨cs, rfl, hpos, ?_, fun hd hne => hne⟩
      intro c hc
      obtain ⟨k, hk⟩ := List.mem_iff_getElem?.mp hc
      have hklen : k < cs.length := (List.getElem?_eq_some.mp hk).1
      exact hinv k (by omega) c hk

/-- Claim C5 counterexample: `flatten_and_balance(1)` called on a leaf
returns immediately — the `while i < len(self)` loop has no children to
visit — so the node's only leaf (itself) stays at depth 0, not at the
claimed target depth 1. -/
theorem flatten_and_balance_leaf_counterexample :
    fab 2 1 (Loop.mk 1 none []) = some (Loop.mk 1 none []) ∧
    (Loop.mk 1 none []).leavesAt 1 = false := by
  constructor
  · rfl
  · rfl

/-- Claim C5 (corrected): for every node that obeys the data-model
invariant (repetition count ≥ 1 at every node) and has at least one
child, and every target depth `d ≥ 1`, whenever `flatten_and_balance(d)`
returns (the fuelled loop completes with any fuel), every leaf below the
node lies at exactly depth `d`.  Called on a leaf the method returns at
once and the leaf remains at depth 0 — the counterexample above — so the
claim's quantification over *every* node fails. -/
theorem flatten_and_balance_leaves_at_depth (fuel : Nat) (d : Nat) (t t' : Loop)
    (hd : 1 ≤ d) (hpos : t.allPos = true) (hne : t.children ≠ [])
    (h : fab fuel (d : Int) t = some t') :
    t'.leavesAt d = true := by
  cases t with
  | mk r w cs =>
    rw [fab] at h
    obtain ⟨cs', rfl, hpos', hall, hne'⟩ := fabGo_spec fuel (d : Int) 0 r w cs t' h
      ((allPos_iff _).mp hpos).2 (fun k hk => absurd hk (by omega))
    have hcsne : cs ≠ [] := hne
    have hcs'ne : cs' ≠ [] := hne' (by exact_mod_cast hd) hcsne
    obtain ⟨c0, rest, rfl⟩ : ∃ c0 rest, cs' = c0 :: rest := by
      cases cs' with
      | nil => exact absurd rfl hcs'ne
      | cons c0 rest => exact ⟨c0, rest, rfl⟩
    obtain ⟨k, rfl⟩ : ∃ k, d = k + 1 := ⟨d - 1, by omega⟩
    rw [Loop.leavesAt]
    apply leavesAtList_of_forall
    intro c hc
    obtain ⟨hbal, hdep⟩ := hall c hc
    exact bal_leavesAt k c hbal (by omega)

/-- Witness for the corrected C5 theorem: one balanced two-level tree,
target depth 1, three units of fuel. -/
theorem flatten_and_balance_leaves_at_depth_witness :
    (Loop.mk 1 none [Loop.mk 1 none []]).leavesAt 1 = true :=
  flatten_and_balance_leaves_at_depth 3 1
    (Loop.mk 1 none [Loop.mk 1 none []]) (Loop.mk 1 none [Loop.mk 1 none []])
    (by decide) (by rfl) (List.cons_ne_nil _ _) (by rfl)

/-! ## Claim C3: setup_advanced_sequence_mode -/

/-- A sequencer-table entry `(repetition_count, waveform_index, jump)`
(`tabor.py` lines 250-251 and 265). -/
abbrev SeqEntry := Nat × Nat × Nat

/-- `check_merge_with_next` (`tabor.py` lines 184-190): when child `n`
and child `n+1` both have repetition count 1 and their combined length
is below `max_seq_len`, child `n` absorbs the children of `n+1` and
`n+1` is deleted.  `none` models the `return False` path. -/
def checkMergeWithNext (maxLen : Nat) (cs : List Loop) (n : Nat) :
    Option (List Loop) :=
  match cs[n]?, cs[n+1]? with
  | some a, some b =>
    if a.rep = 1 ∧ b.rep = 1 ∧ a.children.length + b.children.length < maxLen then
      some ((cs.set n (.mk a.rep a.wf (a.children ++ b.children))).eraseIdx (n+1))
    else none
  | _, _ => none

/-- The `while len(st) < min_seq_len: st.split_one_child()` loop of
`check_partial_unroll` (`tabor.py` lines 197-198), fuelled; `none`
models both a raised `RuntimeError` from `split_one_child` and a run
that does not finish within the fuel. -/
def splitLoop : Nat → Nat → Loop → Option Loop
  | 0, _, _ => none
  | fuel+1, minLen, st =>
    if st.children.length < minLen then
      match st.splitOneChild none with
      | .ok st2 => splitLoop fuel minLen st2
      | .error _ => none
    else some st

/-- `check_partial_unroll` (`tabor.py` lines 192-200): if the fully
unrolled length `Σ entry.repetition_count * st.repetition_count` reaches
`min_seq_len`, unroll the children when their repetition sum alone falls
short, then split children until the length suffices.  `some (false, cs)`
is the untouched `return False` path. -/
def checkPartialUnroll (fuel : Nat) (minLen : Nat) (cs : List Loop) (n : Nat) :
    Option (Bool × List Loop) :=
  match cs[n]? with
  | none => none
  | some st =>
    let sumReps := (st.children.map Loop.rep).sum
    if minLen ≤ sumReps * st.rep then
      match splitLoop fuel minLen
          (if sumReps < minLen then st.unrollChildrenF else st) with
      | some st2 => some (true, cs.set n st2)
      | none => none
    else some (false, cs)

/-- The guarded first merge attempt `i > 0 and
check_merge_with_next(self.program, i-1)` (`tabor.py` line 211). -/
def mergePrev (maxLen : Nat) (cs : List Loop) (i : Nat) : Option (List Loop) :=
  if 0 < i then checkMergeWithNext maxLen cs (i-1) else none

/-- The guarded second merge attempt `i+1 < len(self.program) and
check_merge_with_next(self.program, i)` (`tabor.py` line 213). -/
def mergeNext (maxLen : Nat) (cs : List Loop) (i : Nat) : Option (List Loop) :=
  if i + 1 < cs.length then checkMergeWithNext maxLen cs i else none

/-- The borrow-from-previous branch (`tabor.py` lines 220-224): when the
previous child repeats more than once and the combined length stays
below `max_seq_len`, one copy of its children is prepended to child `i`
and its repetition count is decremented. -/
def borrowPrev (maxLen : Nat) (cs : List Loop) (i : Nat) : Option (List Loop) :=
  if 0 < i then
    match cs[i-1]?, cs[i]? with
    | some p, some c =>
      if 1 < p.rep ∧ c.children.length + p.children.length < maxLen then
        some ((cs.set i (.mk c.rep c.wf (p.children ++ c.children))).set (i-1)
          (.mk (p.rep - 1) p.wf p.children))
      else none
    | _, _ => none
  else none

/-- The borrow-from-next branch (`tabor.py` lines 226-230). -/
def borrowNext (maxLen : Nat) (cs : List Loop) (i : Nat) : Option (List Loop) :=
  match cs[i]?, cs[i+1]? with
  | some c, some nx =>
    if i + 1 < cs.length ∧ 1 < nx.rep
        ∧ c.children.length + nx.children.length < maxLen then
      some ((cs.set i (.mk c.rep c.wf (c.children ++ nx.children))).set (i+1)
        (.mk (nx.rep - 1) nx.wf nx.children))
    else none
  | _, _ => none

/-- The repair loop of `setup_advanced_sequence_mode` (`tabor.py`
lines 202-236), fuelled, over the root's child list: a too-long child
raises (`none`); a too-short child with repetition count 1 tries, in
source order, merging with the previous neighbour, merging with the
next, partial unrolling (advancing `i`), borrowing from either
neighbour, and finally raises; a too-short child with repetition
count `> 1` must partially unroll or the call raises; otherwise
`i += 1`.  `none` also models the `assert repetition_count > 0`
failing and a run that exceeds the fuel. -/
def repairLoop : Nat → Nat → Nat → Nat → List Loop → Option (List Loop)
  | 0, _, _, _, _ => none
  | fuel+1, minLen, maxLen, i, cs =>
    if h : i < cs.length then
      if maxLen < cs[i].children.length then none
      else if cs[i].children.length < minLen then
        if cs[i].rep = 0 then none
        else if cs[i].rep = 1 then
          match mergePrev maxLen cs i with
          | some cs2 => repairLoop fuel minLen maxLen i cs2
          | none =>
            match mergeNext maxLen cs i with
            | some cs2 => repairLoop fuel minLen maxLen i cs2
            | none =>
              match checkPartialUnroll fuel minLen cs i with
              | none => none
              | some (true, cs2) => repairLoop fuel minLen maxLen (i+1) cs2
              | some (false, _) =>
                match borrowPrev maxLen cs i with
                | some cs2 => repairLoop fuel minLen maxLen i cs2
                | none =>
                  match borrowNext maxLen cs i with
                  | some cs2 => repairLoop fuel minLen maxLen i cs2
                  | none => none
        else
          match checkPartialUnroll fuel minLen cs i with
          | none => none
          | some (true, cs2) => repairLoop fuel minLen maxLen (i+1) cs2
          | some (false, _) => none
      else repairLoop fuel minLen maxLen (i+1) cs
    else some cs

/-- The final assertion loop (`tabor.py` lines 238-240): every child's
length must lie in `[min_seq_len, max_seq_len]`. -/
def assertLens (minLen maxLen : Nat) (cs : List Loop) : Bool :=
  cs.all (fun c => decide (minLen ≤ c.children.length)
    && decide (c.children.length ≤ maxLen))

/-- One row of a sequencer table (`tabor.py` lines 246-254): the
grandchild's waveform is restricted to the used channels (`restrict`
stands for `get_subset_for_channels`) and deduplicated through the
ordered `waveforms` dict; a grandchild without a waveform makes the
Python attribute access raise (`none`). -/
def buildRow (restrict : Wf → Wf) (gl : Loop) (ws : List Wf) :
    Option (SeqEntry × List Wf) :=
  match gl.wf with
  | none => none
  | some w =>
    match ws.findIdx? (fun x => x == restrict w) with
    | some k => some ((gl.rep, k, 0), ws)
    | none => some ((gl.rep, ws.length, 0), ws ++ [restrict w])

/-- One sequencer table: a row per grandchild, threading the waveform
dict (`tabor.py` lines 245-254). -/
def buildTable (restrict : Wf → Wf) : List Loop → List Wf →
    Option (List SeqEntry × List Wf)
  | [], ws => some ([], ws)
  | g :: gs, ws =>
    match buildRow restrict g ws with
    | none => none
    | some (row, ws1) =>
      match buildTable restrict gs ws1 with
      | some (rows, ws2) => some (row :: rows, ws2)
      | none => none

/-- The table-building loop over the root's children (`tabor.py`
lines 242-265): each child yields a table, identical tables are
deduplicated (`sequence_no` is the 1-based position), and the advanced
sequencer table gains `(repetition_count, sequence_no, 0)`. -/
def buildAll (restrict : Wf → Wf) : List Loop → List Wf →
    List (List SeqEntry) → List SeqEntry →
    Option (List (List SeqEntry) × List SeqEntry × List Wf)
  | [], ws, tables, adv => some (tables, adv, ws)
  | c :: cs, ws, tables, adv =>
    match buildTable restrict c.children ws with
    | none => none
    | some (cur, ws1) =>
      match tables.findIdx? (fun t => t == cur) with
      | some k => buildAll restrict cs ws1 tables (adv ++ [(c.rep, k+1, 0)])
      | none => buildAll restrict cs ws1 (tables ++ [cur])
          (adv ++ [(c.rep, tables.length + 1, 0)])

/-- The result of a successful `setup_advanced_sequence_mode`: the
repaired program tree and the three download artefacts. -/
structure AdvResult where
  program : Loop
  sequencerTables : List (List SeqEntry)
  advancedTable : List SeqEntry
  waveforms : List Wf
deriving Repr

/-- `TaborProgram.setup_advanced_sequence_mode` (`tabor.py`
lines 173-269): the two entry asserts, `flatten_and_balance(2)`, the
repair loop, the final length asserts, and the table construction.
`none` models every raising or non-terminating run; `some` is a normal
return. -/
def setupAdvanced (fuel : Nat) (minLen maxLen : Nat) (restrict : Wf → Wf)
    (t : Loop) : Option AdvResult :=
  if t.depthN ≤ 1 then none
  else if t.rep ≠ 1 then none
  else
    match fab fuel 2 t with
    | none => none
    | some t1 =>
      match repairLoop fuel minLen maxLen 0 t1.children with
      | none => none
      | some cs2 =>
        if assertLens minLen maxLen cs2 then
          match buildAll restrict cs2 [] [] [] with
          | none => none
          | some (tables, adv, ws) =>
            some ⟨.mk t1.rep t1.wf cs2, tables, adv, ws⟩
        else none

/-- Every built sequencer table has one row per grandchild. -/
theorem buildTable_length (restrict : Wf → Wf) :
    ∀ (gs : List Loop) (ws : List Wf) (rows : List SeqEntry) (ws2 : List Wf),
    buildTable restrict gs ws = some (rows, ws2) → rows.length = gs.length := by
  intro gs
  induction gs with
  | nil =>
    intro ws rows ws2 h
    rw [buildTable] at h
    simp only [Option.some.injEq, Prod.mk.injEq] at h
    rw [← h.1]
    rfl
  | cons g gs ih =>
    intro ws rows ws2 h
    rw [buildTable] at h
    cases hr : buildRow restrict g ws with
    | none =>
      simp only [hr] at h
      exact Option.noConfusion h
    | some p =>
      obtain ⟨row, ws1⟩ := p
      simp only [hr] at h
      cases ht : buildTable restrict gs ws1 with
      | none =>
        simp only [ht] at h
        exact Option.noConfusion h
      | some q =>
        obtain ⟨rows1, wsx⟩ := q
        simp only [ht, Option.some.injEq, Prod.mk.injEq] at h
        rw [← h.1]
        simp [ih ws1 rows1 wsx ht]

/-- Every table produced by the building loop is either inherited or has
the length of some child's child list. -/
theorem buildAll_tables (restrict : Wf → Wf) :
    ∀ (cs : List Loop) (ws : List Wf) (tables : List (List SeqEntry))
      (adv : List SeqEntry) (tables2 : List (List SeqEntry))
      (adv2 : List SeqEntry) (ws2 : List Wf),
    buildAll restrict cs ws tables adv = some (tables2, adv2, ws2) →
    ∀ tab ∈ tables2, tab ∈ tables ∨ ∃ c ∈ cs, tab.length = c.children.length := by
  intro cs
  induction cs with
  | nil =>
    intro ws tables adv tables2 adv2 ws2 h tab htab
    rw [buildAll] at h
    simp only [Option.some.injEq, Prod.mk.injEq] at h
    left
    rw [← h.1] at htab
    exact htab
  | cons c cs ih =>
    intro ws tables adv tables2 adv2 ws2 h tab htab
    rw [buildAll] at h
    cases hbt : buildTable restrict c.children ws with
    | none =>
      simp only [hbt] at h
      exact Option.noConfusion h
    | some p =>
      obtain ⟨cur, ws1⟩ := p
      simp only [hbt] at h
      cases hfi : tables.findIdx? (fun t => t == cur) with
      | some k =>
        simp only [hfi] at h
        rcases ih ws1 tables _ tables2 adv2 ws2 h tab htab with hin | ⟨c2, hc2, hlen⟩
        · exact Or.inl hin
        · exact Or.inr ⟨c2, List.mem_cons_of_mem _ hc2, hlen⟩
      | none =>
        simp only [hfi] at h
        rcases ih ws1 (tables ++ [cur]) _ tables2 adv2 ws2 h tab htab
          with hin | ⟨c2, hc2, hlen⟩
        · rcases List.mem_append.mp hin with hin | hin
          · exact Or.inl hin
          · have hcur : tab = cur := List.mem_singleton.mp hin
            subst hcur
            exact Or.inr ⟨c, List.mem_cons_self _ _,
              buildTable_length restrict c.children ws tab ws1 hbt⟩
        · exact Or.inr ⟨c2, List.mem_cons_of_mem _ hc2, hlen⟩

/-- Claim C3: when `setup_advanced_sequence_mode` returns without
raising, every second-level node of the program tree has a length
between `min_seq_len` and `max_seq_len` inclusive — the final assertion
loop re-checks exactly this before the tables are built — and hence
every produced sequencer table does too, since each table carries one
row per child of the second-level node it was built from. -/
theorem setup_advanced_table_bounds (fuel minLen maxLen : Nat)
    (restrict : Wf → Wf) (t : Loop) (res : AdvResult)
    (h : setupAdvanced fuel minLen maxLen restrict t = some res) :
    (∀ c ∈ res.program.children,
      minLen ≤ c.children.length ∧ c.children.length ≤ maxLen) ∧
    (∀ tab ∈ res.sequencerTables,
      minLen ≤ tab.length ∧ tab.length ≤ maxLen) := by
  rw [setupAdvanced] at h
  split_ifs at h
  cases hf : fab fuel 2 t with
  | none =>
    simp only [hf] at h
    exact absurd h (by simp)
  | some t1 =>
      simp only [hf] at h
      cases hr : repairLoop fuel minLen maxLen 0 t1.children with
      | none =>
        simp only [hr] at h
        exact absurd h (by simp)
      | some cs2 =>
        simp only [hr] at h
        by_cases ha : assertLens minLen maxLen cs2 = true
        · rw [if_pos ha] at h
          cases hb : buildAll restrict cs2 [] [] [] with
          | none =>
            simp only [hb] at h
            exact absurd h (by simp)
          | some q =>
            obtain ⟨tables, adv, ws⟩ := q
            simp only [hb] at h
            obtain rfl : AdvResult.mk (.mk t1.rep t1.wf cs2) tables adv ws = res :=
              Option.some.inj h
            have hbounds : ∀ c ∈ cs2,
                minLen ≤ c.children.length ∧ c.children.length ≤ maxLen := by
              intro c hc
              have hac := (List.all_eq_true.mp ha) c hc
              simp only [Bool.and_eq_true, decide_eq_true_eq] at hac
              exact hac
            constructor
            · intro c hc
              exact hbounds c hc
            · intro tab htab
              rcases buildAll_tables restrict cs2 [] [] [] tables adv ws hb tab htab
                with hin | ⟨c, hc, hlen⟩
              · simp at hin
              · rw [hlen]
                exact hbounds c hc
        · rw [if_neg ha] at h
          simp at h

/-- Witness for the C3 theorem: a depth-2 program with one second-level
node of length 1, device bounds `[1, 2]`, four units of fuel. -/
theorem setup_advanced_table_bounds_witness :
    (∀ c ∈ (AdvResult.mk
        (Loop.mk 1 none [Loop.mk 1 none [Loop.mk 1 (some ⟨0, 1⟩) []]])
        [[(1, 0, 0)]] [(1, 1, 0)] [⟨0, 1⟩]).program.children,
      1 ≤ c.children.length ∧ c.children.length ≤ 2) ∧
    (∀ tab ∈ (AdvResult.mk
        (Loop.mk 1 none [Loop.mk 1 none [Loop.mk 1 (some ⟨0, 1⟩) []]])
        [[(1, 0, 0)]] [(1, 1, 0)] [⟨0, 1⟩]).sequencerTables,
      1 ≤ tab.length ∧ tab.length ≤ 2) :=
  setup_advanced_table_bounds 4 1 2 id
    (Loop.mk 1 none [Loop.mk 1 none [Loop.mk 1 (some ⟨0, 1⟩) []]])
    (AdvResult.mk
      (Loop.mk 1 none [Loop.mk 1 none [Loop.mk 1 (some ⟨0, 1⟩) []]])
      [[(1, 0, 0)]] [(1, 1, 0)] [⟨0, 1⟩])
    (by rfl)

end QcToolkit
